import Mathlib

/-!
Verification of the alioth data-plane core against its specification.

The developments below shallowly embed three source components:

* `Mem`    — `src/alioth/src/mem/addressable.rs` (the `Addressable` sorted
  slot table: `add`, `remove`, `search`, `drain`).
* `Packed` — `src/alioth/src/virtio/queue/packed.rs` (the packed virtqueue:
  descriptor-chain walk and `push_used`).
* `VQueue` — `src/alioth/src/virtio/queue/queue.rs` (the generic queue
  driver loop: `handle_desc`, `handle_pending`, `copy_from_reader`).

Machine integers are modelled as `Nat` with explicit reductions modulo the
relevant power of two where the source relies on wrapping; fallible code
returns `Except`; loops whose iteration count depends on guest-controlled
memory take an explicit fuel argument.
-/


namespace Mem

/-- usize::MAX on the 64-bit targets alioth builds for. -/
def usizeMax : Nat := 2 ^ 64 - 1

/-- One entry of `Addressable`: a base address paired with a backend
(struct `Slot` in addressable.rs). The backend type is kept abstract; the
`sz` parameter below plays the role of `SlotBackend::size`. -/
structure Slot (β : Type) where
  addr : Nat
  backend : β
deriving DecidableEq

/-- The `mem::Error` variants used by addressable.rs. -/
inductive MemErr where
  | outOfRange (addr size : Nat)
  | overlap (newAddr newEnd currAddr currEnd : Nat)
  | notMapped (addr : Nat)
deriving DecidableEq

variable {β : Type}

/-- `Slot::new` (addressable.rs lines 36-45): fails `OutOfRange` exactly when
`(size - 1).checked_add(addr)` overflows usize. -/
def slotNew (sz : β → Nat) (addr : Nat) (b : β) : Except MemErr (Slot β) :=
  if usizeMax < sz b - 1 + addr then .error (.outOfRange addr (sz b))
  else .ok ⟨addr, b⟩

/-- `Slot::addr_end` (lines 47-49): `self.addr.wrapping_add(size)`. -/
def addrEnd (sz : β → Nat) (s : Slot β) : Nat := (s.addr + sz s.backend) % 2 ^ 64

/-- Index of the first slot whose base address is at least `addr`. -/
def ipoint (addr : Nat) : List (Slot β) → Nat
  | [] => 0
  | s :: rest => if addr ≤ s.addr then 0 else ipoint addr rest + 1

/-- Model of `slice::binary_search_by_key(&addr, |s| s.addr)` (std, not part
of this repository). On slices sorted strictly by base address — the only
slices `Addressable` ever builds — std's contract determines the result
uniquely: `Ok(i)` (here `.inl (i, slots[i])`) for the exact match at `i`,
otherwise `Err(insertion point)` (here `.inr`); this definition computes that
result directly from the first index whose key is not below `addr`. -/
def binarySearchByAddr (l : List (Slot β)) (addr : Nat) : Sum (Nat × Slot β) Nat :=
  let i := ipoint addr l
  match l[i]? with
  | some s => if s.addr = addr then .inl (i, s) else .inr i
  | none => .inr i

/-- `Vec::insert` at an index known to be at most the length. -/
def insertAt (s : Slot β) : Nat → List (Slot β) → List (Slot β)
  | 0, l => s :: l
  | _ + 1, [] => [s]
  | n + 1, x :: xs => x :: insertAt s n xs

/-- The predecessor half of the overlap check in `Addressable::add`
(addressable.rs line 137): at insertion point `index`, the new slot conflicts
with its immediate predecessor when the new base lies below the predecessor's
`addr_end`. -/
def predCheck (sz : β → Nat) (l : List (Slot β)) (slot : Slot β) (index : Nat) :
    Sum (Slot β) Nat :=
  if index = 0 then .inr index
  else
    match l[index - 1]? with
    | some p => if slot.addr < addrEnd sz p then .inl p else .inr index
    | none => .inr index

/-- The `result` value computed by `Addressable::add` (addressable.rs lines
132-143): an exact base-address match conflicts; otherwise only the immediate
successor and predecessor of the binary-search insertion point are compared
against the new range. `.inl` carries the conflicting slot, `.inr` the
insertion index. -/
def conflictOf (sz : β → Nat) (l : List (Slot β)) (slot : Slot β) :
    Sum (Slot β) Nat :=
  match binarySearchByAddr l slot.addr with
  | .inl (_, s) => .inl s
  | .inr index =>
    match l[index]? with
    | some succ =>
      if succ.addr < addrEnd sz slot then .inl succ else predCheck sz l slot index
    | none => predCheck sz l slot index

/-- The body of `Addressable::add` after `Slot::new` succeeded (addressable.rs
lines 144-156): report the conflict as `Overlap`, or insert at the
binary-search insertion point. -/
def addSlot (sz : β → Nat) (l : List (Slot β)) (slot : Slot β) :
    Except MemErr Unit × List (Slot β) :=
  match conflictOf sz l slot with
  | .inl c =>
    (.error (.overlap slot.addr (addrEnd sz slot) c.addr (addrEnd sz c)), l)
  | .inr index => (.ok (), insertAt slot index l)

/-- `Addressable::add` (addressable.rs lines 129-157), returning the result
together with the updated slot list. The Rust function mutates `self.slots`
only in the final `Ok` arm, so every error branch here returns the input list.
The Rust code opens with `assert_ne!(backend.size(), 0)` — a zero-sized
backend panics instead of returning — so theorems about `add` carry
`0 < sz b` as a precondition. -/
def add (sz : β → Nat) (l : List (Slot β)) (addr : Nat) (b : β) :
    Except MemErr Unit × List (Slot β) :=
  match slotNew sz addr b with
  | .error e => (.error e, l)
  | .ok slot => addSlot sz l slot

/-- `Addressable::remove` (lines 159-164): exact-match only. -/
def remove (sz : β → Nat) (l : List (Slot β)) (addr : Nat) :
    Except MemErr β × List (Slot β) :=
  match binarySearchByAddr l addr with
  | .inl (i, s) => (.ok s.backend, l.eraseIdx i)
  | .inr _ => (.error (.notMapped addr), l)

/-- `Addressable::search` (lines 166-179): exact match, else the predecessor
slot if its range still contains `addr`. -/
def search (sz : β → Nat) (l : List (Slot β)) (addr : Nat) : Option (Nat × β) :=
  match binarySearchByAddr l addr with
  | .inl (_, s) => some (s.addr, s.backend)
  | .inr 0 => none
  | .inr (i + 1) =>
    match l[i]? with
    | some c => if addr < addrEnd sz c then some (c.addr, c.backend) else none
    | none => none

/-- `Addressable::drain` (lines 109-114). The caller's range is handed
directly to `Vec::drain`, whose semantics are positional: the elements at
indices `start ≤ i < stop` are removed and yielded in order, the rest kept. -/
def drain (l : List (Slot β)) (start stop : Nat) :
    List (Nat × β) × List (Slot β) :=
  (((l.drop start).take (stop - start)).map fun s => (s.addr, s.backend),
   l.take start ++ l.drop stop)

/-- One `Addressable` operation, for stating invariants over histories. -/
inductive AOp (β : Type) where
  | doAdd (addr : Nat) (b : β)
  | doRemove (addr : Nat)

/-- Run a sequence of operations, discarding the per-call results. -/
def exec (sz : β → Nat) : List (AOp β) → List (Slot β) → List (Slot β)
  | [], l => l
  | .doAdd a b :: ops, l => exec sz ops (add sz l a b).2
  | .doRemove a :: ops, l => exec sz ops (remove sz l a).2

/-- The slot `s` covers `addr`: `addr ∈ [base, base + size)`. -/
def covers (sz : β → Nat) (s : Slot β) (addr : Nat) : Prop :=
  s.addr ≤ addr ∧ addr < s.addr + sz s.backend

instance (sz : β → Nat) (s : Slot β) (a : Nat) : Decidable (covers sz s a) := by
  unfold covers; infer_instance

/-- The new range `[addr, addr + size)` intersects slot `s`. -/
def intersects (sz : β → Nat) (s : Slot β) (addr size : Nat) : Prop :=
  s.addr < addr + size ∧ addr < s.addr + sz s.backend

instance (sz : β → Nat) (s : Slot β) (a n : Nat) : Decidable (intersects sz s a n) := by
  unfold intersects; infer_instance

/-- Well-formedness of a slot list: every backend is non-empty and ends
strictly below `2 ^ 64` (so `addr_end` does not wrap), and the slots are
sorted with pairwise disjoint ranges. -/
def WF (sz : β → Nat) (l : List (Slot β)) : Prop :=
  (∀ s ∈ l, 0 < sz s.backend ∧ s.addr + sz s.backend < 2 ^ 64) ∧
  l.Pairwise fun a b => a.addr + sz a.backend ≤ b.addr

/-- Size constraint on an operation: an `add` carries a non-empty backend
whose range stays strictly below the top of the address space. -/
def opOK (sz : β → Nat) : AOp β → Prop
  | .doAdd a b => 0 < sz b ∧ a + sz b < 2 ^ 64
  | .doRemove _ => True


instance (sz : β → Nat) (op : AOp β) : Decidable (opOK sz op) := by
  cases op <;> unfold opOK <;> infer_instance

end Mem

namespace Packed

/-- Flag bits of one packed descriptor, as a record of the individual bits
the packed code reads and writes (NEXT, WRITE, INDIRECT, AVAIL, USED). The
numeric `DescFlag` bitflags type is declared in the queue module outside this
file's sources; packed.rs touches it only through `contains`, `insert` and
`remove` on these five flags, which this record represents exactly. -/
structure DescFlag where
  next : Bool
  write : Bool
  indirect : Bool
  avail : Bool
  used : Bool
deriving DecidableEq, Inhabited

/-- One packed-ring descriptor (struct `Desc`, packed.rs lines 32-43). -/
structure Desc where
  addr : Nat
  len : Nat
  id : Nat
  flag : DescFlag
deriving DecidableEq, Inhabited

/-- The device-side state of a `PackedQueue` touched by the descriptor walk
and `push_used` (packed.rs lines 55-66): ring size, wrap counter, local
cursor, and the descriptor ring contents. -/
structure PackedQueue where
  size : Nat
  wrap_counter : Bool
  used_index : Nat
  ring : List Desc
deriving DecidableEq

/-- `PackedQueue::flag_is_avail` (packed.rs lines 134-137). -/
def flag_is_avail (q : PackedQueue) (f : DescFlag) : Bool :=
  (f.avail == q.wrap_counter) && (f.used != q.wrap_counter)

/-- `PackedQueue::has_next_desc` (packed.rs lines 163-167): reads the flags
of the descriptor at the local cursor. -/
def has_next_desc (q : PackedQueue) : Bool :=
  flag_is_avail q (q.ring.getD q.used_index default).flag

/-- Outcome of the chain walk of `get_next_desc`. -/
inductive WalkResult where
  | outOfFuel
  | indirectTodo
  | chain (id : Nat) (count : Nat) (readable writeable : List (Nat × Nat))
deriving DecidableEq

/-- The chain-walk loop of `PackedQueue::get_next_desc` (packed.rs lines
103-123), with an explicit fuel bound on loop iterations. The Rust loop has
no iteration bound of its own: it classifies each descriptor by the WRITE
flag, panics on INDIRECT (`todo!`, here `indirectTodo`), and follows NEXT
flags with the index wrapping modulo `size` until a descriptor without NEXT
ends the chain. -/
def walk (q : PackedQueue) :
    Nat → Nat → Nat → List (Nat × Nat) → List (Nat × Nat) → WalkResult
  | 0, _, _, _, _ => .outOfFuel
  | fuel + 1, index, count, readable, writeable =>
    let desc := q.ring.getD index default
    if desc.flag.indirect then .indirectTodo
    else
      let readable' :=
        if desc.flag.write then readable else readable ++ [(desc.addr, desc.len)]
      let writeable' :=
        if desc.flag.write then writeable ++ [(desc.addr, desc.len)] else writeable
      if desc.flag.next then
        walk q fuel ((index + 1) % q.size) (count + 1) readable' writeable'
      else .chain desc.id (count + 1) readable' writeable'

/-- `PackedQueue::get_next_desc` (packed.rs lines 98-132): `none` when no
descriptor is available at the cursor, otherwise the chain walk starting at
the local cursor with empty buffer lists. Buffer translation (`translate_iov`)
happens only after the walk finishes and is orthogonal to the walk itself. -/
def get_next_desc (q : PackedQueue) (fuel : Nat) : Option WalkResult :=
  if !has_next_desc q then none
  else some (walk q fuel q.used_index 0 [] [])

/-- `PackedQueue::set_flag_used` (packed.rs lines 139-147). -/
def set_flag_used (wc : Bool) (f : DescFlag) : DescFlag :=
  if wc then { f with used := true, avail := true }
  else { f with used := false, avail := false }

/-- The fields of a fetched `Descriptor` that `push_used` consumes: buffer id,
head ring index, and descriptor count. -/
structure ChainMeta where
  id : Nat
  index : Nat
  count : Nat
deriving DecidableEq

/-- `PackedQueue::push_used` (packed.rs lines 180-199): rewrite the head
descriptor's flags to the "used" encoding for the current wrap counter, store
`id` and `len` (a u32, hence the reduction modulo `2 ^ 32`) there, advance
the cursor by the chain's count, and once the cursor reaches or passes the
ring end subtract `size` and flip the wrap counter. The code asserts
`desc.index == self.used_index`; theorems carry it as a precondition. -/
def push_used (q : PackedQueue) (d : ChainMeta) (len : Nat) : PackedQueue :=
  let first := q.ring.getD q.used_index default
  let first' := { first with
    flag := set_flag_used q.wrap_counter first.flag, id := d.id, len := len % 2 ^ 32 }
  let ring' := q.ring.set q.used_index first'
  let ui := q.used_index + d.count
  if ui ≥ q.size then
    { q with ring := ring', used_index := ui - q.size, wrap_counter := !q.wrap_counter }
  else
    { q with ring := ring', used_index := ui }

/-- A descriptor whose flags mark it available (for wrap counter `true`) and
chained via NEXT: the building block of a cyclic chain. -/
def cyclicDesc : Desc :=
  { addr := 0, len := 0, id := 0,
    flag := { next := true, write := false, indirect := false,
              avail := true, used := false } }

/-- A two-descriptor ring whose descriptors both carry NEXT, so the chain
walk revisits them forever: guest-writable memory can always produce it. -/
def cyclicQueue : PackedQueue :=
  { size := 2, wrap_counter := true, used_index := 0,
    ring := [cyclicDesc, cyclicDesc] }

end Packed

namespace VQueue

/-- A descriptor chain as the driver loop sees it (struct `DescChain`,
queue.rs lines 38-44): head descriptor id, descriptor count, and the
readable/writable buffer lists tracked by their byte lengths
(`IoSlice::len`), which is all the loop and the copy helpers inspect. -/
structure DescChain where
  id : Nat
  count : Nat
  readable : List Nat
  writable : List Nat
deriving DecidableEq

/-- The virtio error values arising on the paths modelled here: an unknown
pending id (`error::InvalidDescriptor`, queue.rs line 100), or an opaque
engine/device error carrying a numeric tag (descriptor-fetch failures,
non-WouldBlock I/O errors propagated with `?`). -/
inductive VErr where
  | invalidDescriptor (id : Nat)
  | other (code : Nat)
deriving DecidableEq

/-- `Status` (queue.rs lines 62-66); `brk` is `Status::Break`. -/
inductive Status where
  | done (len : Nat)
  | deferred
  | brk
deriving DecidableEq

instance {ε α : Type} [DecidableEq ε] [DecidableEq α] : DecidableEq (Except ε α) :=
  fun a b =>
    match a, b with
    | .error e, .error f =>
      if h : e = f then .isTrue (by subst h; rfl)
      else .isFalse fun hc => h (by cases hc; rfl)
    | .error _, .ok _ => .isFalse fun hc => by cases hc
    | .ok _, .error _ => .isFalse fun hc => by cases hc
    | .ok x, .ok y =>
      if h : x = y then .isTrue (by subst h; rfl)
      else .isFalse fun hc => h (by cases hc; rfl)

/-- Events recorded by the instrumented `handle_desc` interpreter, in program
order: each availability check, notification toggle, callback invocation,
used-ring publication (with the chain's interrupt eligibility sampled at
completion time), fence, and interrupt-sender call. `fetchErr` marks a
`get_desc_chain` error propagated by the `?` operator at queue.rs line 124. -/
inductive QEvent where
  | checkAvail (idx : Nat) (r : Bool)
  | enableNotif (b : Bool)
  | fetchErr (e : VErr)
  | opCall (idx : Nat) (r : Except VErr Status)
  | pushUsed (id : Nat) (len : Nat) (eligible : Bool)
  | fence
  | queueIrq
deriving DecidableEq

/-- The `VirtQueue` capability (queue.rs lines 52-60) over an abstract ring
state `σ`, with the interior mutability of the Rust trait made explicit:
`push_used` and `enable_notification` return the updated ring state, the
other operations are reads. -/
structure VirtQueueOps (σ : Type) where
  desc_avail : σ → Nat → Bool
  get_desc_chain : σ → Nat → Except VErr (Option DescChain)
  push_used : σ → DescChain → Nat → σ
  enable_notification : σ → Bool → σ
  interrupt_enabled : σ → DescChain → Bool
  wrapping_add : σ → Nat → Nat → Nat

/-- `HashMap::remove(&k)` on the pending map, kept as an association list
with unique keys: the removed value (if any) and the remaining entries. -/
def pendingRemove (k : Nat) : List (Nat × DescChain) →
    Option DescChain × List (Nat × DescChain)
  | [] => (none, [])
  | (k', v) :: rest =>
    if k' = k then (some v, rest)
    else
      let r := pendingRemove k rest
      (r.1, (k', v) :: r.2)

/-- `HashMap::insert(k, v)` on the pending map: replaces any entry with the
same key. -/
def pendingInsert (k : Nat) (v : DescChain) (l : List (Nat × DescChain)) :
    List (Nat × DescChain) :=
  (k, v) :: l.filter fun p => p.1 != k

/-- Result of one `handle_desc` run: the returned value, the final ring
state, engine cursor, pending map, callback state, and the event trace. -/
structure HDOut (σ ω : Type) where
  res : Except VErr Unit
  qs : σ
  idx : Nat
  pending : List (Nat × DescChain)
  opst : ω
  events : List QEvent
deriving DecidableEq

/-- The trailing interrupt block of `handle_desc` (queue.rs lines 146-149):
one fence and one `queue_irq` call iff an interrupt is owed. -/
def irqTail (needIrq : Bool) : List QEvent :=
  if needIrq then [.fence, .queueIrq] else []

/-- The two loops of `Queue::handle_desc` (queue.rs lines 111-151), as one
fuel-indexed function: phase `true` is the head of the outer `'out` loop
(line 119), phase `false` the head of the inner `while let` loop (line 124).
`none` means the fuel ran out with the loops still running. The callback
`op` carries its own state `ω` (it is an `FnMut` closure in Rust). -/
def hdGo {σ ω : Type} (vq : VirtQueueOps σ)
    (op : Nat → DescChain → ω → Except VErr Status × ω) :
    Bool → Nat → σ → Nat → List (Nat × DescChain) → ω → Bool → Option (HDOut σ ω)
  | _, 0, _, _, _, _, _ => none
  | true, fuel + 1, qs, idx, pend, ost, needIrq =>
    if vq.desc_avail qs idx then
      let qs1 := vq.enable_notification qs false
      (hdGo vq op false fuel qs1 idx pend ost needIrq).map fun out =>
        { out with events := .checkAvail idx true :: .enableNotif false :: out.events }
    else
      some { res := .ok (), qs := qs, idx := idx, pending := pend, opst := ost,
             events := .checkAvail idx false :: irqTail needIrq }
  | false, fuel + 1, qs, idx, pend, ost, needIrq =>
    match vq.get_desc_chain qs idx with
    | .error e =>
      some { res := .error e, qs := qs, idx := idx, pending := pend, opst := ost,
             events := [.fetchErr e] }
    | .ok none =>
      let qs1 := vq.enable_notification qs true
      (hdGo vq op true fuel qs1 idx pend ost needIrq).map fun out =>
        { out with events := .enableNotif true :: .fence :: out.events }
    | .ok (some desc) =>
      let r := op idx desc ost
      match r.1 with
      | .error e =>
        some { res := .error e, qs := vq.enable_notification qs true, idx := idx,
               pending := pend, opst := r.2,
               events := .opCall idx (.error e) :: .enableNotif true :: irqTail needIrq }
      | .ok .brk =>
        some { res := .ok (), qs := qs, idx := idx, pending := pend, opst := r.2,
               events := .opCall idx (.ok .brk) :: irqTail needIrq }
      | .ok (.done len) =>
        let elig := vq.interrupt_enabled qs desc
        let qs' := vq.push_used qs desc len
        let idx' := vq.wrapping_add qs' idx desc.count
        (hdGo vq op false fuel qs' idx' pend r.2 (needIrq || elig)).map fun out =>
          { out with events :=
              .opCall idx (.ok (.done len)) :: .pushUsed desc.id len elig :: out.events }
      | .ok .deferred =>
        let pend' := pendingInsert idx desc pend
        let idx' := vq.wrapping_add qs idx desc.count
        (hdGo vq op false fuel qs idx' pend' r.2 needIrq).map fun out =>
          { out with events := .opCall idx (.ok .deferred) :: out.events }

/-- `Queue::handle_desc` (queue.rs lines 111-151): enter the outer loop with
`need_irq = false` at the engine's current cursor. -/
def handle_desc {σ ω : Type} (vq : VirtQueueOps σ)
    (op : Nat → DescChain → ω → Except VErr Status × ω)
    (fuel : Nat) (qs : σ) (idx : Nat) (pend : List (Nat × DescChain)) (ost : ω) :
    Option (HDOut σ ω) :=
  hdGo vq op true fuel qs idx pend ost false

/-- Events recorded by `handle_pending` (no fence precedes its interrupt
call, matching queue.rs lines 105-107). -/
inductive PEvent where
  | opCall (r : Except VErr Nat)
  | pushUsed (id : Nat) (len : Nat)
  | queueIrq
deriving DecidableEq

/-- Result of one `handle_pending` call. -/
structure HPOut (σ ω : Type) where
  res : Except VErr Unit
  qs : σ
  pending : List (Nat × DescChain)
  opst : ω
  events : List PEvent
deriving DecidableEq

/-- `Queue::handle_pending` (queue.rs lines 92-109): remove the pending chain
for `index` (failing `InvalidDescriptor` when absent), sample interrupt
eligibility, run the completion callback, publish, and send the interrupt if
eligible. -/
def handle_pending {σ ω : Type} (vq : VirtQueueOps σ)
    (op : DescChain → ω → Except VErr Nat × ω)
    (index : Nat) (qs : σ) (pend : List (Nat × DescChain)) (ost : ω) : HPOut σ ω :=
  let rm := pendingRemove index pend
  match rm.1 with
  | none =>
    { res := .error (.invalidDescriptor index), qs := qs, pending := rm.2,
      opst := ost, events := [] }
  | some desc =>
    let needIrq := vq.interrupt_enabled qs desc
    let r := op desc ost
    match r.1 with
    | .error e =>
      { res := .error e, qs := qs, pending := rm.2, opst := r.2,
        events := [.opCall (.error e)] }
    | .ok len =>
      { res := .ok (), qs := vq.push_used qs desc len, pending := rm.2, opst := r.2,
        events := [.opCall (.ok len), .pushUsed desc.id len]
          ++ if needIrq then [.queueIrq] else [] }

/-- The I/O errors `copy_from_reader` distinguishes (queue.rs lines 171-172):
`WouldBlock` versus everything else. -/
inductive IOErr where
  | wouldBlock
  | other (code : Nat)
deriving DecidableEq

/-- The closure body of `Queue::copy_from_reader` (queue.rs lines 159-174):
classify one `read_vectored` outcome against the chain's writable buffer
lengths. A zero-byte read is a zero-length `Done` when the buffers' total
length is zero and `Break` otherwise; `WouldBlock` is `Break`; other errors
propagate. -/
def copy_from_reader_op (writable : List Nat) (r : Except IOErr Nat) :
    Except VErr Status :=
  match r with
  | .ok 0 => if writable.sum = 0 then .ok (.done 0) else .ok .brk
  | .ok len => .ok (.done len)
  | .error .wouldBlock => .ok .brk
  | .error (.other c) => .error (.other c)

/-- `Queue::copy_from_reader` (queue.rs lines 153-175): `handle_desc` with
the read-and-classify closure; `read` models `reader.read_vectored` over the
writable buffer lengths, with the reader's own state threaded through. -/
def copy_from_reader {σ ω : Type} (vq : VirtQueueOps σ)
    (read : List Nat → ω → Except IOErr Nat × ω)
    (fuel : Nat) (qs : σ) (idx : Nat) (pend : List (Nat × DescChain)) (ost : ω) :
    Option (HDOut σ ω) :=
  handle_desc vq
    (fun _ desc ost =>
      let r := read desc.writable ost
      (copy_from_reader_op desc.writable r.1, r.2))
    fuel qs idx pend ost

/-- Bool recognizer: the event is a callback invocation that returned
`Break`. -/
def isBrkOp : QEvent → Bool
  | .opCall _ (.ok .brk) => true
  | _ => false

/-- Bool recognizer: the event is a propagated descriptor-fetch error. -/
def isFetchErr : QEvent → Bool
  | .fetchErr _ => true
  | _ => false

/-- Bool recognizer: the event is a used-ring publication whose chain was
interrupt-eligible at completion time. -/
def isEligPush : QEvent → Bool
  | .pushUsed _ _ true => true
  | _ => false

/-- Every `Done` callback result is immediately followed by its used-ring
publication with the same length: no completed chain is left unpublished. -/
def DonePushed (l : List QEvent) : Prop :=
  ∀ p i len t, l = p ++ .opCall i (.ok (.done len)) :: t →
    ∃ id el t', t = .pushUsed id len el :: t'

end VQueue

namespace VQueue

/-- A concrete split-style ring for exercising the driver loop: the guest has
published `availCount` chains; `chains` holds the `get_desc_chain` result for
each cursor position; `interrupt_enabled` is the constant `intEn`;
`enable_notification` stores into `notif`; `push_used` appends to `used`;
`wrapping_add` adds without wraparound (the runs stay below the ring size).
This is the instrumentation vehicle for concrete runs, not a source type. -/
structure MockQ where
  availCount : Nat
  chains : List (Except VErr (Option DescChain))
  intEn : Bool
  notif : Bool
  used : List (Nat × Nat)
deriving DecidableEq

/-- The `VirtQueueOps` dictionary for `MockQ`. -/
def mockOps : VirtQueueOps MockQ where
  desc_avail q i := decide (i < q.availCount)
  get_desc_chain q i :=
    if i < q.availCount then q.chains.getD i (.ok none) else .ok none
  push_used q d len := { q with used := q.used ++ [(d.id, len)] }
  enable_notification q b := { q with notif := b }
  interrupt_enabled q _ := q.intEn
  wrapping_add _ i c := i + c

/-- A one-descriptor chain with head id 7 and no buffers. -/
def chain7 : DescChain := { id := 7, count := 1, readable := [], writable := [] }

/-- Mock ring for the C4 counterexample: one good chain, then a
descriptor-fetch error. -/
def q4 : MockQ :=
  { availCount := 2, chains := [.ok (some chain7), .error (.other 0)],
    intEn := true, notif := true, used := [] }

/-- Mock ring with a single published chain. -/
def q1 : MockQ :=
  { availCount := 1, chains := [.ok (some chain7)],
    intEn := false, notif := true, used := [] }

end VQueue

namespace VQueue

/-- The run of `handle_desc` on `q1` with a callback returning `Done` with
length 3: one batch drains, notifications are re-enabled, a fence issues, and
availability is re-checked before returning. Verified by `rfl` below. -/
def out3 : HDOut MockQ Unit :=
  { res := .ok (),
    qs := { availCount := 1, chains := [.ok (some chain7)], intEn := false,
            notif := true, used := [(7, 3)] },
    idx := 1, pending := [], opst := (),
    events := [.checkAvail 0 true, .enableNotif false, .opCall 0 (.ok (.done 3)),
               .pushUsed 7 3 false, .enableNotif true, .fence, .checkAvail 1 false] }

/-- The run of `handle_desc` on `q4` with a callback always returning a
5-byte `Done`: the first chain completes interrupt-eligible, then the
descriptor fetch at cursor 1 fails and the `?` operator returns early,
skipping the interrupt block. Verified by `rfl` below. -/
def out4 : HDOut MockQ Unit :=
  { res := .error (.other 0),
    qs := { availCount := 2, chains := [.ok (some chain7), .error (.other 0)],
            intEn := true, notif := false, used := [(7, 5)] },
    idx := 1, pending := [], opst := (),
    events := [.checkAvail 0 true, .enableNotif false, .opCall 0 (.ok (.done 5)),
               .pushUsed 7 5 true, .fetchErr (.other 0)] }

/-- The run of `handle_desc` on `q1` with a callback returning `Break`: the
batch stops with `Ok`, leaving notifications disabled. Verified by `rfl`
below. -/
def out5 : HDOut MockQ Unit :=
  { res := .ok (),
    qs := { availCount := 1, chains := [.ok (some chain7)], intEn := false,
            notif := false, used := [] },
    idx := 0, pending := [], opst := (),
    events := [.checkAvail 0 true, .enableNotif false, .opCall 0 (.ok .brk)] }

end VQueue

namespace Mem

variable {β : Type}

section Lemmas

variable {sz : β → Nat}

theorem ipoint_le_length (a : Nat) (l : List (Slot β)) : ipoint a l ≤ l.length := by
  induction l with
  | nil => simp [ipoint]
  | cons s rest ih =>
    simp only [ipoint, List.length_cons]
    split <;> omega

theorem ipoint_lt_addr {a : Nat} {l : List (Slot β)} :
    ∀ {j : Nat} {s : Slot β}, j < ipoint a l → l[j]? = some s → s.addr < a := by
  induction l with
  | nil => intro j s hj _; simp [ipoint] at hj
  | cons x rest ih =>
    intro j s hj hs
    simp only [ipoint] at hj
    split at hj
    · omega
    · rename_i hx
      cases j with
      | zero =>
        obtain rfl : x = s := by simpa using hs
        omega
      | succ j =>
        simp only [List.getElem?_cons_succ] at hs
        exact ih (by omega) hs

theorem ipoint_ge {a : Nat} {l : List (Slot β)} {s : Slot β}
    (hs : l[ipoint a l]? = some s) : a ≤ s.addr := by
  induction l with
  | nil => simp [ipoint] at hs
  | cons x rest ih =>
    simp only [ipoint] at hs
    split at hs
    · rename_i h
      obtain rfl : x = s := by simpa using hs
      exact h
    · simp only [List.getElem?_cons_succ] at hs
      exact ih hs

theorem ipoint_eq {a : Nat} {l : List (Slot β)} {k : Nat} (hk : k ≤ l.length)
    (hlt : ∀ j s, j < k → l[j]? = some s → s.addr < a)
    (hge : ∀ s, l[k]? = some s → a ≤ s.addr) : ipoint a l = k := by
  induction l generalizing k with
  | nil =>
    simp only [List.length_nil, Nat.le_zero] at hk
    simp [ipoint, hk]
  | cons x rest ih =>
    cases k with
    | zero =>
      have hx := hge x (by simp)
      simp [ipoint, hx]
    | succ k =>
      have hx : x.addr < a := hlt 0 x (by omega) (by simp)
      simp only [ipoint, if_neg (by omega : ¬ a ≤ x.addr)]
      have := ih (k := k) (by simpa using hk)
        (fun j s hj hs => hlt (j + 1) s (by omega) (by simpa using hs))
        (fun s hs => hge s (by simpa using hs))
      omega

theorem insertAt_eq {s : Slot β} :
    ∀ {n : Nat} {l : List (Slot β)}, n ≤ l.length →
      insertAt s n l = l.take n ++ s :: l.drop n := by
  intro n
  induction n with
  | zero => intro l _; simp [insertAt]
  | succ n ih =>
    intro l h
    cases l with
    | nil => simp at h
    | cons x xs =>
      simp only [insertAt, List.take_succ_cons, List.drop_succ_cons, List.cons_append]
      rw [ih (by simpa using h)]

theorem addrEnd_eq {s : Slot β} (h : s.addr + sz s.backend < 2 ^ 64) :
    addrEnd sz s = s.addr + sz s.backend := Nat.mod_eq_of_lt h

theorem WF_rel {l : List (Slot β)} (h : WF sz l) {i j : Nat} {x y : Slot β}
    (hij : i < j) (hx : l[i]? = some x) (hy : l[j]? = some y) :
    x.addr + sz x.backend ≤ y.addr := by
  obtain ⟨hi, rfl⟩ := List.getElem?_eq_some.mp hx
  obtain ⟨hj', rfl⟩ := List.getElem?_eq_some.mp hy
  exact List.pairwise_iff_getElem.mp h.2 i j hi hj' hij

theorem WF_strict {l : List (Slot β)} (h : WF sz l) :
    l.Pairwise fun x y => x.addr < y.addr := by
  rw [List.pairwise_iff_getElem]
  intro i j hi hj hij
  have hsz := (h.1 _ (List.getElem_mem hi)).1
  have := List.pairwise_iff_getElem.mp h.2 i j hi hj hij
  omega

theorem pred_block {l : List (Slot β)} (h : WF sz l) {bnd index : Nat}
    (hle : index ≤ l.length)
    (hpred0 : 0 < index → ∀ p, l[index - 1]? = some p → p.addr + sz p.backend ≤ bnd) :
    ∀ j x, j < index → l[j]? = some x → x.addr + sz x.backend ≤ bnd := by
  intro j x hj hx
  have hpred := hpred0 (by omega)
  rcases Nat.lt_or_ge j (index - 1) with hj' | hj'
  · have hjlen : j < l.length := (List.getElem?_eq_some.mp hx).1
    have hplen : index - 1 < l.length := by omega
    have hsome : l[index - 1]? = some l[index - 1] := List.getElem?_eq_getElem hplen
    have h1 := WF_rel h hj' hx hsome
    have h2 := hpred _ hsome
    omega
  · have : j = index - 1 := by omega
    exact hpred x (this ▸ hx)

theorem succ_block {l : List (Slot β)} (h : WF sz l) {bnd index : Nat}
    (hsucc : ∀ s, l[index]? = some s → bnd ≤ s.addr) :
    ∀ k y, index ≤ k → l[k]? = some y → bnd ≤ y.addr := by
  intro k y hk hy
  rcases Nat.eq_or_lt_of_le hk with rfl | hlt
  · exact hsucc y hy
  · have hklen : k < l.length := (List.getElem?_eq_some.mp hy).1
    have hi : index < l.length := lt_trans hlt hklen
    have hsome : l[index]? = some l[index] := List.getElem?_eq_getElem hi
    have h1 := hsucc _ hsome
    have h2 := WF_rel h hlt hsome hy
    omega

theorem mem_drop_getElem? {α : Type} {l : List α} {n : Nat} {y : α}
    (hy : y ∈ l.drop n) : ∃ m, l[n + m]? = some y := by
  obtain ⟨j, hj, rfl⟩ := List.mem_iff_getElem.mp hy
  refine ⟨j, ?_⟩
  rw [← List.getElem?_drop]
  exact List.getElem?_eq_getElem hj

theorem mem_take_getElem? {α : Type} {l : List α} {n : Nat} {x : α}
    (hx : x ∈ l.take n) : ∃ j, j < n ∧ l[j]? = some x := by
  obtain ⟨j, hj, rfl⟩ := List.mem_iff_getElem.mp hx
  have hjn : j < n := by
    have := hj
    simp only [List.length_take, lt_inf_iff] at this
    exact this.1
  refine ⟨j, hjn, ?_⟩
  have h1 := List.getElem?_eq_getElem hj
  rw [List.getElem?_take, if_pos hjn] at h1
  exact h1

theorem binarySearch_inr {l : List (Slot β)} {a i : Nat}
    (h : binarySearchByAddr l a = .inr i) : i = ipoint a l := by
  simp only [binarySearchByAddr] at h
  split at h
  · split at h
    · cases h
    · injection h with h'
      exact h'.symm
  · injection h with h'
    exact h'.symm

theorem predCheck_inr {l : List (Slot β)} {slot : Slot β} {index i : Nat}
    (h : predCheck sz l slot index = .inr i) :
    i = index ∧ (0 < index → ∀ p, l[index - 1]? = some p → ¬ slot.addr < addrEnd sz p) := by
  unfold predCheck at h
  split at h
  · rename_i h0
    injection h with h'
    exact ⟨h'.symm, fun hpos => by omega⟩
  · rename_i h0
    split at h
    · rename_i p hp
      split at h
      · cases h
      · rename_i hnl
        injection h with h'
        refine ⟨h'.symm, fun _ p' hp' => ?_⟩
        rw [hp] at hp'
        obtain rfl : p = p' := Option.some.inj hp'
        exact hnl
    · rename_i hp
      injection h with h'
      exact ⟨h'.symm, fun _ p' hp' => by rw [hp] at hp'; cases hp'⟩

theorem conflictOf_inr_inv {l : List (Slot β)} {slot : Slot β} {i : Nat}
    (h : conflictOf sz l slot = .inr i) :
    i = ipoint slot.addr l ∧
    (∀ s, l[i]? = some s → ¬ s.addr < addrEnd sz slot) ∧
    (0 < i → ∀ p, l[i - 1]? = some p → ¬ slot.addr < addrEnd sz p) := by
  unfold conflictOf at h
  split at h
  · cases h
  · rename_i index hbs
    have hip : index = ipoint slot.addr l := binarySearch_inr hbs
    split at h
    · rename_i succ hsc
      split at h
      · cases h
      · rename_i hnl
        obtain ⟨rfl, hpred⟩ := predCheck_inr h
        refine ⟨hip, ?_, hpred⟩
        intro s hs
        rw [hsc] at hs
        obtain rfl : succ = s := Option.some.inj hs
        exact hnl
    · rename_i hsc
      obtain ⟨rfl, hpred⟩ := predCheck_inr h
      refine ⟨hip, ?_, hpred⟩
      intro s hs
      rw [hsc] at hs
      cases hs

theorem addSlot_ok_inv {l : List (Slot β)} {slot : Slot β} {l' : List (Slot β)}
    (h : addSlot sz l slot = (.ok (), l')) :
    l' = insertAt slot (ipoint slot.addr l) l ∧
    (∀ s, l[ipoint slot.addr l]? = some s → ¬ s.addr < addrEnd sz slot) ∧
    (0 < ipoint slot.addr l →
      ∀ p, l[ipoint slot.addr l - 1]? = some p → ¬ slot.addr < addrEnd sz p) := by
  unfold addSlot at h
  split at h
  · cases h
  · rename_i i hc
    obtain ⟨hip, hsucc, hpred⟩ := conflictOf_inr_inv hc
    subst hip
    simp only [Prod.mk.injEq] at h
    exact ⟨h.2.symm, hsucc, hpred⟩

theorem addSlot_err_inv {l : List (Slot β)} {slot : Slot β} {e : MemErr}
    {l' : List (Slot β)} (h : addSlot sz l slot = (.error e, l')) :
    l' = l ∧ ∃ ca ce, e = .overlap slot.addr (addrEnd sz slot) ca ce := by
  unfold addSlot at h
  split at h
  · rename_i c hc
    simp only [Prod.mk.injEq, Except.error.injEq] at h
    exact ⟨h.2.symm, c.addr, addrEnd sz c, h.1.symm⟩
  · cases h

theorem slotNew_ok {a : Nat} {b : β} (he : a + sz b < 2 ^ 64) :
    slotNew sz a b = .ok ⟨a, b⟩ := by
  unfold slotNew usizeMax
  rw [if_neg]
  omega

theorem add_eq_of_slotNew_ok {l : List (Slot β)} {a : Nat} {b : β} {slot : Slot β}
    (h : slotNew sz a b = .ok slot) : add sz l a b = addSlot sz l slot := by
  unfold add
  rw [h]

theorem add_error_eq {l : List (Slot β)} {a : Nat} {b : β} {e : MemErr}
    {l' : List (Slot β)} (h : add sz l a b = (.error e, l')) : l' = l := by
  unfold add at h
  rcases hs : slotNew sz a b with e' | slot <;> rw [hs] at h
  · simp only [Prod.mk.injEq] at h
    exact h.2.symm
  · exact (addSlot_err_inv h).1

theorem WF_insert {l : List (Slot β)} (h : WF sz l) {slot : Slot β}
    (hb : 0 < sz slot.backend) (he : slot.addr + sz slot.backend < 2 ^ 64)
    {index : Nat} (hidx : index = ipoint slot.addr l)
    (hsucc : ∀ s, l[index]? = some s → slot.addr + sz slot.backend ≤ s.addr)
    (hpred : 0 < index → ∀ p, l[index - 1]? = some p → p.addr + sz p.backend ≤ slot.addr) :
    WF sz (insertAt slot index l) := by
  have hlen : index ≤ l.length := hidx ▸ ipoint_le_length _ _
  rw [insertAt_eq hlen]
  constructor
  · intro s hs
    rcases List.mem_append.mp hs with hs | hs
    · exact h.1 s ((List.take_sublist _ _).subset hs)
    · rcases List.mem_cons.mp hs with rfl | hs
      · exact ⟨hb, he⟩
      · exact h.1 s ((List.drop_sublist _ _).subset hs)
  · rw [List.pairwise_append]
    refine ⟨List.Pairwise.sublist (List.take_sublist _ _) h.2, ?_, ?_⟩
    · rw [List.pairwise_cons]
      refine ⟨?_, List.Pairwise.sublist (List.drop_sublist _ _) h.2⟩
      intro y hy
      obtain ⟨m, hm⟩ := mem_drop_getElem? hy
      exact succ_block h hsucc (index + m) y (by omega) hm
    · intro x hx y hy
      obtain ⟨j, hjn, hj⟩ := mem_take_getElem? hx
      rcases List.mem_cons.mp hy with rfl | hy
      · exact pred_block h hlen hpred j x hjn hj
      · obtain ⟨m, hm⟩ := mem_drop_getElem? hy
        exact WF_rel h (by omega : j < index + m) hj hm

theorem mem_of_getElem? {α : Type} {l : List α} {i : Nat} {x : α}
    (h : l[i]? = some x) : x ∈ l := by
  obtain ⟨hi, rfl⟩ := List.getElem?_eq_some.mp h
  exact List.getElem_mem hi

theorem add_WF {l : List (Slot β)} (h : WF sz l) {a : Nat} {b : β}
    (hb : 0 < sz b) (he : a + sz b < 2 ^ 64) : WF sz (add sz l a b).2 := by
  rcases hr : add sz l a b with ⟨r, l'⟩
  rcases r with e | u
  · obtain rfl := add_error_eq hr
    exact h
  · cases u
    rw [add_eq_of_slotNew_ok (slotNew_ok he)] at hr
    obtain ⟨rfl, hsucc, hpred⟩ := addSlot_ok_inv hr
    refine WF_insert h hb he rfl ?_ ?_
    · intro s hs
      have h1 := hsucc s hs
      rw [addrEnd_eq he] at h1
      replace h1 : ¬ s.addr < a + sz b := h1
      show a + sz b ≤ s.addr
      omega
    · intro hpos p hp
      have h1 := hpred hpos p hp
      have h2 := (h.1 p (mem_of_getElem? hp)).2
      rw [addrEnd_eq h2] at h1
      replace h1 : ¬ a < p.addr + sz p.backend := h1
      show p.addr + sz p.backend ≤ a
      omega

theorem add_ok_no_intersect {l : List (Slot β)} (h : WF sz l) {a : Nat} {b : β}
    (he : a + sz b < 2 ^ 64) (hok : (add sz l a b).1 = .ok ()) :
    ∀ s ∈ l, ¬ intersects sz s a (sz b) := by
  intro s hs hint
  rcases hr : add sz l a b with ⟨r, l'⟩
  rw [hr] at hok
  simp only at hok
  subst hok
  rw [add_eq_of_slotNew_ok (slotNew_ok he)] at hr
  obtain ⟨-, hsucc, hpred⟩ := addSlot_ok_inv hr
  have hsucc' : ∀ s', l[ipoint a l]? = some s' → a + sz b ≤ s'.addr := by
    intro s' hs'
    have h1 := hsucc s' hs'
    rw [addrEnd_eq he] at h1
    replace h1 : ¬ s'.addr < a + sz b := h1
    omega
  have hpred' : 0 < ipoint a l →
      ∀ p, l[ipoint a l - 1]? = some p → p.addr + sz p.backend ≤ a := by
    intro hpos p hp
    have h1 := hpred hpos p hp
    have h2 := (h.1 p (mem_of_getElem? hp)).2
    rw [addrEnd_eq h2] at h1
    replace h1 : ¬ a < p.addr + sz p.backend := h1
    omega
  obtain ⟨k, hk, rfl⟩ := List.mem_iff_getElem.mp hs
  have hx : l[k]? = some l[k] := List.getElem?_eq_getElem hk
  rcases Nat.lt_or_ge k (ipoint a l) with hlt | hge
  · have hend := pred_block h (ipoint_le_length a l) hpred' k _ hlt hx
    exact absurd hint.2 (by omega)
  · have haddr := succ_block h hsucc' k _ hge hx
    exact absurd hint.1 (by omega)

theorem add_overlap {l : List (Slot β)} (h : WF sz l) {a : Nat} {b : β}
    (he : a + sz b < 2 ^ 64) {s : Slot β}
    (hs : s ∈ l) (hi : intersects sz s a (sz b)) :
    ∃ na ne ca ce, (add sz l a b).1 = .error (.overlap na ne ca ce) := by
  rcases hr : add sz l a b with ⟨r, l'⟩
  rcases r with e | u
  · rw [add_eq_of_slotNew_ok (slotNew_ok he)] at hr
    obtain ⟨-, ca, ce, rfl⟩ := addSlot_err_inv hr
    exact ⟨_, _, _, _, rfl⟩
  · cases u
    have hok : (add sz l a b).1 = .ok () := by rw [hr]
    exact absurd hi (add_ok_no_intersect h he hok s hs)

theorem remove_WF {l : List (Slot β)} (h : WF sz l) (a : Nat) :
    WF sz (remove sz l a).2 := by
  unfold remove
  rcases hbs : binarySearchByAddr l a with ⟨i, s⟩ | i
  · refine ⟨fun s' hs' => h.1 s' (List.mem_of_mem_eraseIdx hs'), ?_⟩
    exact List.Pairwise.sublist (List.eraseIdx_sublist l i) h.2
  · exact h

theorem binarySearch_exact {l : List (Slot β)} {a k : Nat} (hk : k < l.length)
    (hip : ipoint a l = k) (heq : l[k].addr = a) :
    binarySearchByAddr l a = .inl (k, l[k]) := by
  simp only [binarySearchByAddr]
  rw [hip, List.getElem?_eq_getElem hk]
  show (if l[k].addr = a then (Sum.inl (k, l[k]) : Sum (Nat × Slot β) Nat) else Sum.inr k)
      = Sum.inl (k, l[k])
  rw [if_pos heq]

theorem binarySearch_miss {l : List (Slot β)} {a : Nat}
    (hne : ∀ s, l[ipoint a l]? = some s → s.addr ≠ a) :
    binarySearchByAddr l a = .inr (ipoint a l) := by
  simp only [binarySearchByAddr]
  rcases hl : l[ipoint a l]? with _ | s
  · rfl
  · show (if s.addr = a then (Sum.inl (ipoint a l, s) : Sum (Nat × Slot β) Nat)
        else Sum.inr (ipoint a l)) = Sum.inr (ipoint a l)
    rw [if_neg (hne s hl)]

theorem search_covers {l : List (Slot β)} (h : WF sz l) {s : Slot β} {a : Nat}
    (hs : s ∈ l) (hc : covers sz s a) :
    search sz l a = some (s.addr, s.backend) := by
  obtain ⟨k, hk, rfl⟩ := List.mem_iff_getElem.mp hs
  rcases Nat.eq_or_lt_of_le hc.1 with heq | hlt
  · have hip : ipoint a l = k := by
      apply ipoint_eq (by omega)
      · intro j t hj ht
        have h1 := WF_rel h hj ht (List.getElem?_eq_getElem hk)
        have h2 := (h.1 t (mem_of_getElem? ht)).1
        omega
      · intro t ht
        rw [List.getElem?_eq_getElem hk] at ht
        obtain rfl := Option.some.inj ht
        omega
    have hbs := binarySearch_exact hk hip heq
    unfold search
    rw [hbs]
  · have hip : ipoint a l = k + 1 := by
      apply ipoint_eq (by omega)
      · intro j t hj ht
        rcases Nat.lt_or_ge j k with hj' | hj'
        · have h1 := WF_rel h hj' ht (List.getElem?_eq_getElem hk)
          omega
        · have hjk : j = k := by omega
          subst hjk
          rw [List.getElem?_eq_getElem hk] at ht
          obtain rfl := Option.some.inj ht
          omega
      · intro t ht
        have h1 := WF_rel h (by omega : k < k + 1) (List.getElem?_eq_getElem hk) ht
        have h2 := hc.2
        omega
    have hbs : binarySearchByAddr l a = .inr (k + 1) := by
      rw [← hip]
      apply binarySearch_miss
      intro t ht hta
      rw [hip] at ht
      have h1 := WF_rel h (by omega : k < k + 1) (List.getElem?_eq_getElem hk) ht
      have h2 := hc.2
      omega
    unfold search
    rw [hbs]
    show (match l[k]? with
      | some c => if a < addrEnd sz c then some (c.addr, c.backend) else none
      | none => none) = some (l[k].addr, l[k].backend)
    rw [List.getElem?_eq_getElem hk]
    have hend : addrEnd sz l[k] = l[k].addr + sz l[k].backend :=
      addrEnd_eq (h.1 _ (List.getElem_mem hk)).2
    show (if a < addrEnd sz l[k] then some (l[k].addr, l[k].backend) else none)
        = some (l[k].addr, l[k].backend)
    rw [if_pos (by rw [hend]; exact hc.2)]

theorem search_none {l : List (Slot β)} (h : WF sz l) {a : Nat}
    (hn : ∀ s ∈ l, ¬ covers sz s a) : search sz l a = none := by
  have hbs : binarySearchByAddr l a = .inr (ipoint a l) := by
    apply binarySearch_miss
    intro t ht hta
    have hm := mem_of_getElem? ht
    have h1 := (h.1 t hm).1
    exact hn t hm ⟨le_of_eq hta, by omega⟩
  unfold search
  rw [hbs]
  rcases hip : ipoint a l with _ | j
  · rfl
  · have hjlen : j < l.length := by
      have h1 := ipoint_le_length a l
      omega
    have hcj : l[j]? = some l[j] := List.getElem?_eq_getElem hjlen
    have hja : l[j].addr < a := ipoint_lt_addr (by omega) hcj
    show (match l[j]? with
      | some c => if a < addrEnd sz c then some (c.addr, c.backend) else none
      | none => none) = none
    rw [hcj]
    have hm := List.getElem_mem hjlen
    have hend : addrEnd sz l[j] = l[j].addr + sz l[j].backend :=
      addrEnd_eq (h.1 _ hm).2
    show (if a < addrEnd sz l[j] then some (l[j].addr, l[j].backend) else none) = none
    rw [if_neg]
    rw [hend]
    exact fun hlt => hn _ hm ⟨Nat.le_of_lt hja, hlt⟩

theorem WF_nil : WF sz ([] : List (Slot β)) :=
  ⟨fun s hs => absurd hs (List.not_mem_nil s), List.Pairwise.nil⟩

theorem exec_WF : ∀ (ops : List (AOp β)) (l : List (Slot β)), WF sz l →
    (∀ op ∈ ops, opOK sz op) → WF sz (exec sz ops l)
  | [], _, hl, _ => hl
  | .doAdd a b :: rest, l, hl, hops => by
    have hop : opOK sz (AOp.doAdd a b) := hops _ (List.mem_cons_self _ _)
    exact exec_WF rest _ (add_WF hl hop.1 hop.2)
      fun o ho => hops o (List.mem_cons_of_mem _ ho)
  | .doRemove a :: rest, l, hl, hops =>
    exec_WF rest _ (remove_WF hl a)
      fun o ho => hops o (List.mem_cons_of_mem _ ho)

theorem covers_unique {l : List (Slot β)} (h : WF sz l) {a : Nat} {s t : Slot β}
    (hs : s ∈ l) (ht : t ∈ l) (hcs : covers sz s a) (hct : covers sz t a) : s = t := by
  obtain ⟨i, hi, rfl⟩ := List.mem_iff_getElem.mp hs
  obtain ⟨j, hj, rfl⟩ := List.mem_iff_getElem.mp ht
  rcases Nat.lt_trichotomy i j with hij | rfl | hij
  · have := List.pairwise_iff_getElem.mp h.2 i j hi hj hij
    obtain ⟨h1, h2⟩ := hcs
    obtain ⟨h3, h4⟩ := hct
    omega
  · rfl
  · have := List.pairwise_iff_getElem.mp h.2 j i hj hi hij
    obtain ⟨h1, h2⟩ := hcs
    obtain ⟨h3, h4⟩ := hct
    omega

end Lemmas

end Mem

/-- C2, counterexample. The claim is false at the very top of the address
space: `addr_end` is computed with `wrapping_add`, so a slot whose range ends
exactly at `2 ^ 64` has `addr_end = 0`, and both overlap checks in `add`
compare against that wrapped end. Starting from the empty collection,
`add(2^64 - 16, size 16)` succeeds and creates a slot covering the top 16
addresses; `add(2^64 - 1, size 1)` intersects it but is accepted with `Ok`
instead of being rejected with `Overlap`. -/
theorem c2_overlap_accepted_at_top :
    (Mem.add (fun n : Nat => n) [] (2 ^ 64 - 16) 16).1 = .ok () ∧
    (Mem.add (fun n : Nat => n) [] (2 ^ 64 - 16) 16).2
      = [⟨2 ^ 64 - 16, 16⟩] ∧
    Mem.intersects (fun n : Nat => n) (⟨2 ^ 64 - 16, 16⟩ : Mem.Slot Nat)
      (2 ^ 64 - 1) 1 ∧
    (Mem.add (fun n : Nat => n) [⟨2 ^ 64 - 16, 16⟩] (2 ^ 64 - 1) 1).1 = .ok () := by
  refine ⟨rfl, rfl, ?_, rfl⟩
  constructor <;> decide

/-- C2 (amended): for every sequence of `add`/`remove` operations starting
from the empty collection in which every `add` has a non-empty backend whose
range ends strictly below `2 ^ 64` (so `addr_end` never wraps), the slot
sequence is well-formed — strictly increasing by base address and pairwise
non-overlapping — any further `add` whose range intersects a live slot is
rejected with `Overlap`, `search(addr)` returns `some (base, backend)` iff a
live slot with those fields covers `addr`, and at most one live slot covers
any address. -/
theorem c2_addressable_invariant_amended {β : Type} (sz : β → Nat)
    (ops : List (Mem.AOp β)) (hops : ∀ op ∈ ops, Mem.opOK sz op) :
    Mem.WF sz (Mem.exec sz ops []) ∧
    (Mem.exec sz ops []).Pairwise (fun x y => x.addr < y.addr) ∧
    (∀ a b, 0 < sz b → a + sz b < 2 ^ 64 →
      (∃ s ∈ Mem.exec sz ops [], Mem.intersects sz s a (sz b)) →
      ∃ na ne ca ce,
        (Mem.add sz (Mem.exec sz ops []) a b).1 = .error (.overlap na ne ca ce)) ∧
    (∀ a base bk,
      Mem.search sz (Mem.exec sz ops []) a = some (base, bk) ↔
      ∃ s ∈ Mem.exec sz ops [], Mem.covers sz s a ∧ s.addr = base ∧ s.backend = bk) ∧
    (∀ a (s t : Mem.Slot β), s ∈ Mem.exec sz ops [] → t ∈ Mem.exec sz ops [] →
      Mem.covers sz s a → Mem.covers sz t a → s = t) := by
  have hWF := Mem.exec_WF ops [] Mem.WF_nil hops
  refine ⟨hWF, Mem.WF_strict hWF, ?_, ?_, ?_⟩
  · rintro a b hb he ⟨s, hs, hint⟩
    exact Mem.add_overlap hWF he hs hint
  · intro a base bk
    constructor
    · intro hsearch
      by_cases hex : ∃ s ∈ Mem.exec sz ops [], Mem.covers sz s a
      · obtain ⟨s, hs, hc⟩ := hex
        have heq := Mem.search_covers hWF hs hc
        rw [heq] at hsearch
        obtain ⟨h1, h2⟩ : s.addr = base ∧ s.backend = bk := by
          simpa using hsearch
        exact ⟨s, hs, hc, h1, h2⟩
      · have heq := Mem.search_none hWF fun s hs hc => hex ⟨s, hs, hc⟩
        rw [heq] at hsearch
        cases hsearch
    · rintro ⟨s, hs, hc, rfl, rfl⟩
      exact Mem.search_covers hWF hs hc
  · intro a s t hs ht hcs hct
    exact Mem.covers_unique hWF hs ht hcs hct

/-- C2 witness: the amended theorem applied to the concrete history
`add(0x1000, 0x1000); add(0x3000, 0x1000); remove(0x1000)`. -/
theorem c2_addressable_invariant_amended_witness :
    Mem.WF (fun n : Nat => n)
      (Mem.exec (fun n : Nat => n)
        [Mem.AOp.doAdd 0x1000 0x1000, Mem.AOp.doAdd 0x3000 0x1000,
         Mem.AOp.doRemove 0x1000] []) :=
  (c2_addressable_invariant_amended (fun n : Nat => n)
    [Mem.AOp.doAdd 0x1000 0x1000, Mem.AOp.doAdd 0x3000 0x1000,
     Mem.AOp.doRemove 0x1000] (by decide)).1

/-- C9, counterexample. `Addressable::drain` passes the caller's range
directly to `Vec::drain`, which interprets it as a range of positions, not of
base addresses: draining `0..1` from the two-slot collection with bases
`0x1000` and `0x5000` yields the slot based at `0x1000`, whose base does not
lie in the range `[0, 1)`. -/
theorem c9_drain_is_positional :
    (Mem.drain ([⟨0x1000, 1⟩, ⟨0x5000, 2⟩] : List (Mem.Slot Nat)) 0 1).1
      = [(0x1000, 1)] ∧
    ¬ (0x1000 < 1) := by
  exact ⟨rfl, by decide⟩

/-- C9 (amended): `drain(range)` interprets the range positionally: it
removes and yields exactly the entries whose index in the slot sequence falls
in the range, in ascending base-address order (for a well-formed collection),
and leaves every other entry in place, in order. -/
theorem c9_drain_amended {β : Type} (sz : β → Nat) (l : List (Mem.Slot β))
    (s e : Nat) (hse : s ≤ e) (hel : e ≤ l.length) (hwf : Mem.WF sz l) :
    (Mem.drain l s e).1.length = e - s ∧
    (∀ i, i < e - s →
      (Mem.drain l s e).1[i]? = (l[s + i]?).map fun sl => (sl.addr, sl.backend)) ∧
    (Mem.drain l s e).2.length = l.length - (e - s) ∧
    (∀ j, j < s → (Mem.drain l s e).2[j]? = l[j]?) ∧
    (∀ j, s ≤ j → (Mem.drain l s e).2[j]? = l[j + (e - s)]?) ∧
    (Mem.drain l s e).1.Pairwise fun x y => x.1 < y.1 := by
  have hyl : (Mem.drain l s e).1 = ((l.drop s).take (e - s)).map
      fun sl => (sl.addr, sl.backend) := rfl
  have hrl : (Mem.drain l s e).2 = l.take s ++ l.drop e := rfl
  have htl : (l.take s).length = s := by
    simp only [List.length_take]
    omega
  refine ⟨?_, ?_, ?_, ?_, ?_, ?_⟩
  · rw [hyl]
    simp only [List.length_map, List.length_take, List.length_drop]
    omega
  · intro i hi
    rw [hyl]
    rw [List.getElem?_map, List.getElem?_take, if_pos hi, List.getElem?_drop]
  · rw [hrl]
    simp only [List.length_append, List.length_take, List.length_drop]
    omega
  · intro j hj
    rw [hrl, List.getElem?_append, if_pos (by omega : j < (l.take s).length),
      List.getElem?_take, if_pos hj]
  · intro j hj
    rw [hrl, List.getElem?_append, if_neg (by omega : ¬ j < (l.take s).length),
      htl, List.getElem?_drop, show e + (j - s) = j + (e - s) by omega]
  · rw [hyl, List.pairwise_map]
    exact List.Pairwise.sublist
      (((l.drop s).take_sublist (e - s)).trans (l.drop_sublist s))
      (Mem.WF_strict hwf)

/-- C9 witness: the amended theorem applied to a concrete two-slot
collection, draining position range `0..1`. -/
theorem c9_drain_amended_witness :
    (Mem.drain ([⟨0x1000, 0x1000⟩, ⟨0x3000, 0x1000⟩] : List (Mem.Slot Nat)) 0 1).1.length
      = 1 - 0 :=
  (c9_drain_amended (fun n : Nat => n)
    [⟨0x1000, 0x1000⟩, ⟨0x3000, 0x1000⟩] 0 1 (by decide) (by decide)
    (by constructor <;> decide)).1

/-- C10: whenever `Addressable::add` returns an error — `OutOfRange` from
`Slot::new` or `Overlap` from the conflict check — the slot sequence after
the call is the slot sequence before the call: a failed insertion mutates
nothing. -/
theorem c10_add_error_leaves_slots_unchanged {β : Type} (sz : β → Nat)
    (l : List (Mem.Slot β)) (a : Nat) (b : β) (e : Mem.MemErr)
    (hb : 0 < sz b)
    (h : (Mem.add sz l a b).1 = .error e) : (Mem.add sz l a b).2 = l := by
  rcases hr : Mem.add sz l a b with ⟨r, l'⟩
  rw [hr] at h
  have hr' : r = Except.error e := h
  subst hr'
  exact Mem.add_error_eq hr

/-- C10 witness: a concrete rejected insertion (overlapping `add`) leaving
the one-slot collection unchanged. -/
theorem c10_add_error_leaves_slots_unchanged_witness :
    (Mem.add (fun n : Nat => n) [⟨0, 1⟩] 0 1).2 = [(⟨0, 1⟩ : Mem.Slot Nat)] :=
  c10_add_error_leaves_slots_unchanged (fun n : Nat => n) [⟨0, 1⟩] 0 1
    (.overlap 0 1 0 1) (by decide) (by rfl)

theorem cyclic_walk_never_ends :
    ∀ (fuel index count : Nat) (readable writeable : List (Nat × Nat)),
      index < 2 →
      Packed.walk Packed.cyclicQueue fuel index count readable writeable
        = .outOfFuel := by
  intro fuel
  induction fuel with
  | zero => intro index count readable writeable _; rfl
  | succ n ih =>
    intro index count readable writeable hidx
    have hdesc : Packed.cyclicQueue.ring.getD index default = Packed.cyclicDesc := by
      interval_cases index <;> rfl
    show Packed.walk Packed.cyclicQueue (n + 1) index count readable writeable
      = .outOfFuel
    simp only [Packed.walk, hdesc]
    exact ih ((index + 1) % Packed.cyclicQueue.size) (count + 1) _ _
      (Nat.mod_lt _ (by decide))

/-- C1 (the code lacks the claimed bound): the chain walk of
`PackedQueue::get_next_desc` follows NEXT flags with no chain-length check at
all — nothing compares the visited count against `size`, and no
`DescriptorChainTooLong`-style error exists on this path. On a ring whose
descriptors all carry NEXT (guest-controlled memory can always be in that
state), an available descriptor is seen at the cursor, yet the walk visits
descriptors forever: for every fuel bound it is still running, so the call
never returns an error — it simply does not terminate. -/
theorem c1_get_next_desc_no_chain_bound :
    Packed.has_next_desc Packed.cyclicQueue = true ∧
    (∀ (fuel index count : Nat) (readable writeable : List (Nat × Nat)),
      index < 2 →
      Packed.walk Packed.cyclicQueue fuel index count readable writeable
        = .outOfFuel) ∧
    (∀ fuel, Packed.get_next_desc Packed.cyclicQueue fuel = some .outOfFuel) := by
  refine ⟨rfl, cyclic_walk_never_ends, ?_⟩
  intro fuel
  show Packed.get_next_desc Packed.cyclicQueue fuel = some .outOfFuel
  unfold Packed.get_next_desc
  rw [if_neg (by decide)]
  rw [cyclic_walk_never_ends fuel Packed.cyclicQueue.used_index 0 [] [] (by decide)]

/-- C1 witness: the universally quantified conjunct applied at concrete fuel
and cursor. -/
theorem c1_get_next_desc_no_chain_bound_witness :
    Packed.walk Packed.cyclicQueue 5 0 0 [] [] = .outOfFuel :=
  c1_get_next_desc_no_chain_bound.2.1 5 0 0 [] [] (by decide)

/-- C8: `push_used` writes `id` and `len` into the chain's head descriptor,
sets that descriptor's AVAIL and USED flag bits to the "used" encoding for
the current wrap counter — both equal to `wrap_counter`, i.e. both set when
it is true and both clear when false — and advances the local cursor by the
chain's descriptor count; when the cursor reaches or exceeds `size` the new
cursor is `(old_cursor + count) - size` and the wrap counter is flipped, so
it flips exactly once per full traversal of `size` descriptors. -/
theorem c8_push_used_head_write_and_wrap (q : Packed.PackedQueue)
    (d : Packed.ChainMeta) (len : Nat)
    (hidx : d.index = q.used_index)
    (hring : q.ring.length = q.size)
    (hui : q.used_index < q.size)
    (hlen : len < 2 ^ 32) :
    ((Packed.push_used q d len).ring.getD q.used_index default).id = d.id ∧
    ((Packed.push_used q d len).ring.getD q.used_index default).len = len ∧
    ((Packed.push_used q d len).ring.getD q.used_index default).flag.avail
      = q.wrap_counter ∧
    ((Packed.push_used q d len).ring.getD q.used_index default).flag.used
      = q.wrap_counter ∧
    (q.used_index + d.count < q.size →
      (Packed.push_used q d len).used_index = q.used_index + d.count ∧
      (Packed.push_used q d len).wrap_counter = q.wrap_counter) ∧
    (q.size ≤ q.used_index + d.count →
      (Packed.push_used q d len).used_index = q.used_index + d.count - q.size ∧
      (Packed.push_used q d len).wrap_counter = !q.wrap_counter) := by
  have hlt : q.used_index < q.ring.length := by omega
  have hget : (Packed.push_used q d len).ring.getD q.used_index default
      = { q.ring.getD q.used_index default with
          flag := Packed.set_flag_used q.wrap_counter
            (q.ring.getD q.used_index default).flag,
          id := d.id, len := len % 2 ^ 32 } := by
    simp only [Packed.push_used]
    split <;>
      simp only [List.getD_eq_getElem?_getD, List.getElem?_set_self hlt,
        Option.getD_some]
  refine ⟨?_, ?_, ?_, ?_, ?_, ?_⟩
  · rw [hget]
  · rw [hget]
    show len % 2 ^ 32 = len
    exact Nat.mod_eq_of_lt hlen
  · rw [hget]
    show (Packed.set_flag_used q.wrap_counter _).avail = q.wrap_counter
    unfold Packed.set_flag_used
    cases q.wrap_counter <;> simp
  · rw [hget]
    show (Packed.set_flag_used q.wrap_counter _).used = q.wrap_counter
    unfold Packed.set_flag_used
    cases q.wrap_counter <;> simp
  · intro hlt2
    simp only [Packed.push_used]
    rw [if_neg (by omega : ¬ q.used_index + d.count ≥ q.size)]
    exact ⟨rfl, rfl⟩
  · intro hge
    simp only [Packed.push_used]
    rw [if_pos (by omega : q.used_index + d.count ≥ q.size)]
    exact ⟨rfl, rfl⟩

/-- C8 witness: the theorem applied to a concrete two-descriptor ring with a
chain that spans the ring boundary, so the wrap counter flips. -/
theorem c8_push_used_head_write_and_wrap_witness :
    ((Packed.push_used
        { size := 2, wrap_counter := true, used_index := 1,
          ring := [Packed.cyclicDesc, Packed.cyclicDesc] }
        { id := 1, index := 1, count := 2 } 7).ring.getD 1 default).id = 1 :=
  (c8_push_used_head_write_and_wrap
    { size := 2, wrap_counter := true, used_index := 1,
      ring := [Packed.cyclicDesc, Packed.cyclicDesc] }
    { id := 1, index := 1, count := 2 } 7 rfl rfl (by decide) (by decide)).1

namespace VQueue

variable {σ ω : Type} {vq : VirtQueueOps σ}
variable {op : Nat → DescChain → ω → Except VErr Status × ω}

theorem irqTail_no_opCall {needIrq : Bool} {i : Nat} {r : Except VErr Status} :
    QEvent.opCall i r ∉ irqTail needIrq := by
  cases needIrq <;> simp [irqTail]

theorem irqTail_cases (needIrq : Bool) :
    irqTail needIrq = [] ∨ irqTail needIrq = [QEvent.fence, QEvent.queueIrq] := by
  cases needIrq <;> simp [irqTail]

theorem hdGo_brk :
    ∀ (fuel : Nat) (phase : Bool) (qs : σ) (idx : Nat)
      (pend : List (Nat × DescChain)) (ost : ω) (needIrq : Bool)
      (out : HDOut σ ω) (i : Nat),
      hdGo vq op phase fuel qs idx pend ost needIrq = some out →
      QEvent.opCall i (.ok .brk) ∈ out.events →
      out.res = .ok () ∧
      ∃ p t, out.events = p ++ [QEvent.opCall i (.ok .brk)] ++ t ∧
        (t = [] ∨ t = [QEvent.fence, QEvent.queueIrq]) := by
  intro fuel
  induction fuel with
  | zero =>
    intro phase qs idx pend ost needIrq out i h _
    cases phase <;> simp [hdGo] at h
  | succ n ih =>
    intro phase qs idx pend ost needIrq out i h hmem
    cases phase
    · simp only [hdGo] at h
      split at h
      · rename_i e heq
        obtain rfl : _ = out := Option.some.inj h
        simp at hmem
      · rename_i heq
        rw [Option.map_eq_some'] at h
        obtain ⟨a, ha, rfl⟩ := h
        have hmem' : QEvent.opCall i (.ok .brk) ∈ a.events := by simpa using hmem
        obtain ⟨hres, p, t, hev, ht⟩ := ih true _ _ _ _ _ a i ha hmem'
        exact ⟨hres, QEvent.enableNotif true :: QEvent.fence :: p, t, by simp [hev], ht⟩
      · rename_i desc heq
        split at h
        · rename_i e heq2
          obtain rfl : _ = out := Option.some.inj h
          exfalso
          rcases irqTail_cases needIrq with hit | hit <;> simp [hit] at hmem
        · rename_i heq2
          obtain rfl : _ = out := Option.some.inj h
          have hi : i = idx := by
            rcases irqTail_cases needIrq with hit | hit <;> simp [hit] at hmem <;>
              exact hmem
          subst hi
          exact ⟨rfl, [], irqTail needIrq, by simp, irqTail_cases needIrq⟩
        · rename_i len heq2
          rw [Option.map_eq_some'] at h
          obtain ⟨a, ha, rfl⟩ := h
          have hmem' : QEvent.opCall i (.ok .brk) ∈ a.events := by simpa using hmem
          obtain ⟨hres, p, t, hev, ht⟩ := ih false _ _ _ _ _ a i ha hmem'
          exact ⟨hres,
            QEvent.opCall idx (.ok (.done len)) ::
              QEvent.pushUsed desc.id len (vq.interrupt_enabled qs desc) :: p,
            t, by simp [hev], ht⟩
        · rename_i heq2
          rw [Option.map_eq_some'] at h
          obtain ⟨a, ha, rfl⟩ := h
          have hmem' : QEvent.opCall i (.ok .brk) ∈ a.events := by simpa using hmem
          obtain ⟨hres, p, t, hev, ht⟩ := ih false _ _ _ _ _ a i ha hmem'
          exact ⟨hres, QEvent.opCall idx (.ok .deferred) :: p, t, by simp [hev], ht⟩
    · simp only [hdGo] at h
      split at h
      · rename_i havail
        rw [Option.map_eq_some'] at h
        obtain ⟨a, ha, rfl⟩ := h
        have hmem' : QEvent.opCall i (.ok .brk) ∈ a.events := by simpa using hmem
        obtain ⟨hres, p, t, hev, ht⟩ := ih false _ _ _ _ _ a i ha hmem'
        exact ⟨hres, QEvent.checkAvail idx true :: QEvent.enableNotif false :: p, t,
          by simp [hev], ht⟩
      · rename_i havail
        obtain rfl : _ = out := Option.some.inj h
        exfalso
        rcases irqTail_cases needIrq with hit | hit <;> simp [hit] at hmem

end VQueue

namespace VQueue

variable {σ ω : Type} {vq : VirtQueueOps σ}
variable {op : Nat → DescChain → ω → Except VErr Status × ω}

theorem donePushed_cons_other {l : List QEvent} {e : QEvent}
    (he : ∀ i len, e ≠ .opCall i (.ok (.done len))) (h : DonePushed l) :
    DonePushed (e :: l) := by
  intro p i len t heq
  cases p with
  | nil =>
    simp only [List.nil_append, List.cons.injEq] at heq
    exact absurd heq.1 (he i len)
  | cons x p' =>
    simp only [List.cons_append, List.cons.injEq] at heq
    exact h p' i len t heq.2

theorem donePushed_of_none {l : List QEvent}
    (hno : ∀ i len, QEvent.opCall i (.ok (.done len)) ∉ l) : DonePushed l := by
  intro p i len t heq
  exact absurd (heq ▸ List.mem_append_right p (List.mem_cons_self _ _)) (hno i len)

theorem donePushed_done_cons {l : List QEvent} {i len id : Nat} {el : Bool}
    (h : DonePushed l) :
    DonePushed (.opCall i (.ok (.done len)) :: .pushUsed id len el :: l) := by
  intro p j len' t heq
  cases p with
  | nil =>
    simp only [List.nil_append, List.cons.injEq, QEvent.opCall.injEq] at heq
    obtain ⟨⟨-, hr⟩, ht⟩ := heq
    obtain rfl : len = len' := by
      cases hr  -- hmm placeholder
      rfl
    exact ⟨id, el, l, ht.symm⟩
  | cons x p' =>
    simp only [List.cons_append, List.cons.injEq] at heq
    exact donePushed_cons_other (by intro a b hc; cases hc) h p' j len' t heq.2

theorem hdGo_donePushed :
    ∀ (fuel : Nat) (phase : Bool) (qs : σ) (idx : Nat)
      (pend : List (Nat × DescChain)) (ost : ω) (needIrq : Bool)
      (out : HDOut σ ω),
      hdGo vq op phase fuel qs idx pend ost needIrq = some out →
      DonePushed out.events := by
  intro fuel
  induction fuel with
  | zero =>
    intro phase qs idx pend ost needIrq out h
    cases phase <;> simp [hdGo] at h
  | succ n ih =>
    intro phase qs idx pend ost needIrq out h
    cases phase
    · simp only [hdGo] at h
      split at h
      · rename_i e heq
        obtain rfl : _ = out := Option.some.inj h
        exact donePushed_of_none (by intro i len hm; simp at hm)
      · rename_i heq
        rw [Option.map_eq_some'] at h
        obtain ⟨a, ha, rfl⟩ := h
        exact donePushed_cons_other (by intro i len hc; cases hc)
          (donePushed_cons_other (by intro i len hc; cases hc) (ih true _ _ _ _ _ a ha))
      · rename_i desc heq
        split at h
        · rename_i e heq2
          obtain rfl : _ = out := Option.some.inj h
          refine donePushed_of_none ?_
          intro i len hm
          rcases irqTail_cases needIrq with hit | hit <;> simp [hit] at hm
        · rename_i heq2
          obtain rfl : _ = out := Option.some.inj h
          refine donePushed_of_none ?_
          intro i len hm
          rcases irqTail_cases needIrq with hit | hit <;> simp [hit] at hm
        · rename_i len heq2
          rw [Option.map_eq_some'] at h
          obtain ⟨a, ha, rfl⟩ := h
          exact donePushed_done_cons (ih false _ _ _ _ _ a ha)
        · rename_i heq2
          rw [Option.map_eq_some'] at h
          obtain ⟨a, ha, rfl⟩ := h
          exact donePushed_cons_other (by intro i len hc; cases hc)
            (ih false _ _ _ _ _ a ha)
    · simp only [hdGo] at h
      split at h
      · rename_i havail
        rw [Option.map_eq_some'] at h
        obtain ⟨a, ha, rfl⟩ := h
        exact donePushed_cons_other (by intro i len hc; cases hc)
          (donePushed_cons_other (by intro i len hc; cases hc) (ih false _ _ _ _ _ a ha))
      · rename_i havail
        obtain rfl : _ = out := Option.some.inj h
        refine donePushed_of_none ?_
        intro i len hm
        rcases irqTail_cases needIrq with hit | hit <;> simp [hit] at hm

end VQueue

namespace VQueue

variable {σ ω : Type} {vq : VirtQueueOps σ}
variable {op : Nat → DescChain → ω → Except VErr Status × ω}

theorem hdGo_ok_exit :
    ∀ (fuel : Nat) (phase : Bool) (qs : σ) (idx : Nat)
      (pend : List (Nat × DescChain)) (ost : ω) (needIrq : Bool)
      (out : HDOut σ ω),
      hdGo vq op phase fuel qs idx pend ost needIrq = some out →
      out.res = .ok () →
      (∀ e ∈ out.events, isBrkOp e = false) →
      vq.desc_avail out.qs out.idx = false ∧
      ∃ p t, out.events = p ++ [QEvent.checkAvail out.idx false] ++ t ∧
        (t = [] ∨ t = [QEvent.fence, QEvent.queueIrq]) ∧
        (p = [] ∨ ∃ p', p = p' ++ [QEvent.enableNotif true, QEvent.fence]) ∧
        (phase = false → ∃ p', p = p' ++ [QEvent.enableNotif true, QEvent.fence]) := by
  intro fuel
  induction fuel with
  | zero =>
    intro phase qs idx pend ost needIrq out h
    cases phase <;> simp [hdGo] at h
  | succ n ih =>
    intro phase qs idx pend ost needIrq out h hres hnb
    cases phase
    · simp only [hdGo] at h
      split at h
      · rename_i e heq
        obtain rfl : _ = out := Option.some.inj h
        cases hres
      · rename_i heq
        rw [Option.map_eq_some'] at h
        obtain ⟨a, ha, rfl⟩ := h
        have hnb' : ∀ e ∈ a.events, isBrkOp e = false := by
          intro e he
          exact hnb e (by simp [he])
        obtain ⟨hav, p, t, hev, ht, hp, -⟩ := ih true _ _ _ _ _ a ha hres hnb'
        refine ⟨hav, QEvent.enableNotif true :: QEvent.fence :: p, t, by simp [hev],
          ht, ?_, ?_⟩
        · right
          rcases hp with rfl | ⟨p', rfl⟩
          · exact ⟨[], rfl⟩
          · exact ⟨QEvent.enableNotif true :: QEvent.fence :: p', by simp⟩
        · intro _
          rcases hp with rfl | ⟨p', rfl⟩
          · exact ⟨[], rfl⟩
          · exact ⟨QEvent.enableNotif true :: QEvent.fence :: p', by simp⟩
      · rename_i desc heq
        split at h
        · rename_i e heq2
          obtain rfl : _ = out := Option.some.inj h
          cases hres
        · rename_i heq2
          obtain rfl : _ = out := Option.some.inj h
          exfalso
          have := hnb (QEvent.opCall idx (.ok .brk)) (List.mem_cons_self _ _)
          simp [isBrkOp] at this
        · rename_i len heq2
          rw [Option.map_eq_some'] at h
          obtain ⟨a, ha, rfl⟩ := h
          have hnb' : ∀ e ∈ a.events, isBrkOp e = false := by
            intro e he
            exact hnb e (by simp [he])
          obtain ⟨hav, p, t, hev, ht, hp, hpf⟩ := ih false _ _ _ _ _ a ha hres hnb'
          obtain ⟨p', rfl⟩ := hpf rfl
          refine ⟨hav,
            QEvent.opCall idx (.ok (.done len)) ::
              QEvent.pushUsed desc.id len (vq.interrupt_enabled qs desc) ::
                (p' ++ [QEvent.enableNotif true, QEvent.fence]), t,
            by simp [hev], ht, ?_, ?_⟩
          · right
            exact ⟨QEvent.opCall idx (.ok (.done len)) ::
              QEvent.pushUsed desc.id len (vq.interrupt_enabled qs desc) :: p', by simp⟩
          · intro _
            exact ⟨QEvent.opCall idx (.ok (.done len)) ::
              QEvent.pushUsed desc.id len (vq.interrupt_enabled qs desc) :: p', by simp⟩
        · rename_i heq2
          rw [Option.map_eq_some'] at h
          obtain ⟨a, ha, rfl⟩ := h
          have hnb' : ∀ e ∈ a.events, isBrkOp e = false := by
            intro e he
            exact hnb e (by simp [he])
          obtain ⟨hav, p, t, hev, ht, hp, hpf⟩ := ih false _ _ _ _ _ a ha hres hnb'
          obtain ⟨p', rfl⟩ := hpf rfl
          refine ⟨hav,
            QEvent.opCall idx (.ok .deferred) ::
              (p' ++ [QEvent.enableNotif true, QEvent.fence]), t,
            by simp [hev], ht, ?_, ?_⟩
          · right
            exact ⟨QEvent.opCall idx (.ok .deferred) :: p', by simp⟩
          · intro _
            exact ⟨QEvent.opCall idx (.ok .deferred) :: p', by simp⟩
    · simp only [hdGo] at h
      split at h
      · rename_i havail
        rw [Option.map_eq_some'] at h
        obtain ⟨a, ha, rfl⟩ := h
        have hnb' : ∀ e ∈ a.events, isBrkOp e = false := by
          intro e he
          exact hnb e (by simp [he])
        obtain ⟨hav, p, t, hev, ht, hp, hpf⟩ := ih false _ _ _ _ _ a ha hres hnb'
        obtain ⟨p', rfl⟩ := hpf rfl
        refine ⟨hav,
          QEvent.checkAvail idx true :: QEvent.enableNotif false ::
            (p' ++ [QEvent.enableNotif true, QEvent.fence]), t,
          by simp [hev], ht, ?_, ?_⟩
        · right
          exact ⟨QEvent.checkAvail idx true :: QEvent.enableNotif false :: p', by simp⟩
        · intro hc
          cases hc
      · rename_i havail
        obtain rfl : _ = out := Option.some.inj h
        refine ⟨by simpa using havail, [], irqTail needIrq, by simp, irqTail_cases needIrq,
          Or.inl rfl, ?_⟩
        intro hc
        cases hc

end VQueue

namespace VQueue

variable {σ ω : Type} {vq : VirtQueueOps σ}
variable {op : Nat → DescChain → ω → Except VErr Status × ω}

theorem hdGo_irq_once :
    ∀ (fuel : Nat) (phase : Bool) (qs : σ) (idx : Nat)
      (pend : List (Nat × DescChain)) (ost : ω) (needIrq : Bool)
      (out : HDOut σ ω),
      hdGo vq op phase fuel qs idx pend ost needIrq = some out →
      QEvent.queueIrq ∉ out.events ∨
      ∃ p, out.events = p ++ [QEvent.fence, QEvent.queueIrq] ∧
        QEvent.queueIrq ∉ p := by
  intro fuel
  induction fuel with
  | zero =>
    intro phase qs idx pend ost needIrq out h
    cases phase <;> simp [hdGo] at h
  | succ n ih =>
    have lift2 : ∀ (e1 e2 : QEvent) (l : List QEvent),
        e1 ≠ QEvent.queueIrq → e2 ≠ QEvent.queueIrq →
        (QEvent.queueIrq ∉ l ∨
          ∃ p, l = p ++ [QEvent.fence, QEvent.queueIrq] ∧ QEvent.queueIrq ∉ p) →
        (QEvent.queueIrq ∉ e1 :: e2 :: l ∨
          ∃ p, e1 :: e2 :: l = p ++ [QEvent.fence, QEvent.queueIrq] ∧
            QEvent.queueIrq ∉ p) := by
      intro e1 e2 l h1 h2 hd
      rcases hd with hd | ⟨p, rfl, hp⟩
      · left
        simp [Ne.symm h1, Ne.symm h2, hd]
      · right
        exact ⟨e1 :: e2 :: p, by simp, by simp [Ne.symm h1, Ne.symm h2, hp]⟩
    have tail2 : ∀ (e1 : QEvent) (needIrq : Bool),
        e1 ≠ QEvent.queueIrq →
        (QEvent.queueIrq ∉ e1 :: irqTail needIrq ∨
          ∃ p, e1 :: irqTail needIrq = p ++ [QEvent.fence, QEvent.queueIrq] ∧
            QEvent.queueIrq ∉ p) := by
      intro e1 nI h1
      cases nI
      · left
        simp [irqTail, Ne.symm h1]
      · right
        exact ⟨[e1], by simp [irqTail], by simp [Ne.symm h1]⟩
    intro phase qs idx pend ost needIrq out h
    cases phase
    · simp only [hdGo] at h
      split at h
      · rename_i e heq
        obtain rfl : _ = out := Option.some.inj h
        left
        simp
      · rename_i heq
        rw [Option.map_eq_some'] at h
        obtain ⟨a, ha, rfl⟩ := h
        exact lift2 _ _ _ (by simp) (by simp) (ih true _ _ _ _ _ a ha)
      · rename_i desc heq
        split at h
        · rename_i e heq2
          obtain rfl : _ = out := Option.some.inj h
          have := tail2 (QEvent.enableNotif true) needIrq (by simp)
          rcases this with hd | ⟨p, hpe, hp⟩
          · left
            simpa using hd
          · right
            refine ⟨QEvent.opCall idx (.error e) :: p, ?_, by simp [hp]⟩
            show QEvent.opCall idx (.error e) :: QEvent.enableNotif true :: irqTail needIrq
              = _
            rw [hpe]
            simp
        · rename_i heq2
          obtain rfl : _ = out := Option.some.inj h
          exact tail2 _ _ (by simp)
        · rename_i len heq2
          rw [Option.map_eq_some'] at h
          obtain ⟨a, ha, rfl⟩ := h
          exact lift2 _ _ _ (by simp) (by simp) (ih false _ _ _ _ _ a ha)
        · rename_i heq2
          rw [Option.map_eq_some'] at h
          obtain ⟨a, ha, rfl⟩ := h
          have := ih false _ _ _ _ _ a ha
          rcases this with hd | ⟨p, hpe, hp⟩
          · left
            simp [hd]
          · right
            exact ⟨QEvent.opCall idx (.ok .deferred) :: p, by simp [hpe], by simp [hp]⟩
    · simp only [hdGo] at h
      split at h
      · rename_i havail
        rw [Option.map_eq_some'] at h
        obtain ⟨a, ha, rfl⟩ := h
        exact lift2 _ _ _ (by simp) (by simp) (ih false _ _ _ _ _ a ha)
      · rename_i havail
        obtain rfl : _ = out := Option.some.inj h
        exact tail2 _ _ (by simp)

end VQueue

namespace VQueue

variable {σ ω : Type} {vq : VirtQueueOps σ}
variable {op : Nat → DescChain → ω → Except VErr Status × ω}

theorem isEligPush_pushUsed (i l : Nat) (b : Bool) :
    isEligPush (.pushUsed i l b) = b := by
  cases b <;> rfl

theorem hdGo_irq_iff :
    ∀ (fuel : Nat) (phase : Bool) (qs : σ) (idx : Nat)
      (pend : List (Nat × DescChain)) (ost : ω) (needIrq : Bool)
      (out : HDOut σ ω),
      hdGo vq op phase fuel qs idx pend ost needIrq = some out →
      (QEvent.queueIrq ∈ out.events ↔
        ((∀ e ∈ out.events, isFetchErr e = false) ∧
         (needIrq = true ∨ ∃ e ∈ out.events, isEligPush e = true))) := by
  intro fuel
  induction fuel with
  | zero =>
    intro phase qs idx pend ost needIrq out h
    cases phase <;> simp [hdGo] at h
  | succ n ih =>
    have liftN : ∀ (e1 : QEvent) (l : List QEvent) (nI : Bool),
        e1 ≠ QEvent.queueIrq → isFetchErr e1 = false → isEligPush e1 = false →
        ((QEvent.queueIrq ∈ l) ↔
          ((∀ e ∈ l, isFetchErr e = false) ∧
           (nI = true ∨ ∃ e ∈ l, isEligPush e = true))) →
        ((QEvent.queueIrq ∈ e1 :: l) ↔
          ((∀ e ∈ e1 :: l, isFetchErr e = false) ∧
           (nI = true ∨ ∃ e ∈ e1 :: l, isEligPush e = true))) := by
      intro e1 l nI hne hf he hiff
      constructor
      · intro hmem
        have hmem' : QEvent.queueIrq ∈ l := by
          rcases List.mem_cons.mp hmem with h | h
          · exact absurd h.symm hne
          · exact h
        obtain ⟨h1, h2⟩ := hiff.mp hmem'
        refine ⟨?_, ?_⟩
        · intro e hh
          rcases List.mem_cons.mp hh with rfl | hh
          · exact hf
          · exact h1 e hh
        · rcases h2 with h2 | ⟨e, hmem2, helig⟩
          · exact Or.inl h2
          · exact Or.inr ⟨e, List.mem_cons_of_mem _ hmem2, helig⟩
      · rintro ⟨h1, h2⟩
        refine List.mem_cons_of_mem _ (hiff.mpr ⟨?_, ?_⟩)
        · intro e hh
          exact h1 e (List.mem_cons_of_mem _ hh)
        · rcases h2 with h2 | ⟨e, hmem2, helig⟩
          · exact Or.inl h2
          · rcases List.mem_cons.mp hmem2 with rfl | hmem2
            · rw [he] at helig
              cases helig
            · exact Or.inr ⟨e, hmem2, helig⟩
    intro phase qs idx pend ost needIrq out h
    cases phase
    · simp only [hdGo] at h
      split at h
      · rename_i e heq
        obtain rfl : _ = out := Option.some.inj h
        simp [isFetchErr]
      · rename_i heq
        rw [Option.map_eq_some'] at h
        obtain ⟨a, ha, rfl⟩ := h
        exact liftN _ _ _ (by simp) rfl rfl
          (liftN _ _ _ (by simp) rfl rfl (ih true _ _ _ _ _ a ha))
      · rename_i desc heq
        split at h
        · rename_i e heq2
          obtain rfl : _ = out := Option.some.inj h
          cases needIrq <;>
            simp [irqTail, isFetchErr, isEligPush]
        · rename_i heq2
          obtain rfl : _ = out := Option.some.inj h
          cases needIrq <;>
            simp [irqTail, isFetchErr, isEligPush]
        · rename_i len heq2
          rw [Option.map_eq_some'] at h
          obtain ⟨a, ha, rfl⟩ := h
          have hiff := ih false _ _ _ _ _ a ha
          show QEvent.queueIrq ∈
              QEvent.opCall idx (.ok (.done len)) ::
                QEvent.pushUsed desc.id len (vq.interrupt_enabled qs desc) :: a.events ↔ _
          constructor
          · intro hmem
            have hmem' : QEvent.queueIrq ∈ a.events := by
              rcases List.mem_cons.mp hmem with hx | hx
              · cases hx
              · rcases List.mem_cons.mp hx with hy | hy
                · cases hy
                · exact hy
            obtain ⟨h1, h2⟩ := hiff.mp hmem'
            refine ⟨?_, ?_⟩
            · intro e hh
              rcases List.mem_cons.mp hh with rfl | hh
              · rfl
              · rcases List.mem_cons.mp hh with rfl | hh
                · rfl
                · exact h1 e hh
            · rcases h2 with h2 | ⟨e, hmem2, helig⟩
              · rcases Bool.or_eq_true .. |>.mp h2 with hni | helig
                · exact Or.inl hni
                · refine Or.inr ⟨QEvent.pushUsed desc.id len (vq.interrupt_enabled qs desc),
                    List.mem_cons_of_mem _ (List.mem_cons_self _ _), ?_⟩
                  rw [isEligPush_pushUsed, helig]
              · exact Or.inr ⟨e, List.mem_cons_of_mem _ (List.mem_cons_of_mem _ hmem2), helig⟩
          · rintro ⟨h1, h2⟩
            refine List.mem_cons_of_mem _ (List.mem_cons_of_mem _ (hiff.mpr ⟨?_, ?_⟩))
            · intro e hh
              exact h1 e (List.mem_cons_of_mem _ (List.mem_cons_of_mem _ hh))
            · rcases h2 with h2 | ⟨e, hmem2, helig⟩
              · exact Or.inl (by simp [h2])
              · rcases List.mem_cons.mp hmem2 with rfl | hmem2
                · cases helig
                · rcases List.mem_cons.mp hmem2 with rfl | hmem2
                  · rw [isEligPush_pushUsed] at helig
                    exact Or.inl (by simp [helig])
                  · exact Or.inr ⟨e, hmem2, helig⟩
        · rename_i heq2
          rw [Option.map_eq_some'] at h
          obtain ⟨a, ha, rfl⟩ := h
          exact liftN _ _ _ (by simp) rfl rfl (ih false _ _ _ _ _ a ha)
    · simp only [hdGo] at h
      split at h
      · rename_i havail
        rw [Option.map_eq_some'] at h
        obtain ⟨a, ha, rfl⟩ := h
        exact liftN _ _ _ (by simp) rfl rfl
          (liftN _ _ _ (by simp) rfl rfl (ih false _ _ _ _ _ a ha))
      · rename_i havail
        obtain rfl : _ = out := Option.some.inj h
        cases needIrq <;>
          simp [irqTail, isFetchErr, isEligPush]

end VQueue

namespace VQueue

theorem pendingRemove_absent {k : Nat} :
    ∀ {l : List (Nat × DescChain)}, (∀ v, (k, v) ∉ l) →
      pendingRemove k l = (none, l) := by
  intro l
  induction l with
  | nil => intro _; rfl
  | cons x rest ih =>
    intro habs
    obtain ⟨k', v⟩ := x
    have hne : ¬ k' = k := by
      intro he
      exact habs v (by rw [he]; exact List.mem_cons_self _ _)
    have hrest := ih fun v' hv' => habs v' (List.mem_cons_of_mem _ hv')
    simp [pendingRemove, hne, hrest]

end VQueue

/-- C3: whenever `handle_desc` returns `Ok` and no callback returned `Break`,
the availability check at the engine's final cursor is false at return (the
kick race is closed), the trace ends with that check (followed at most by the
fence + interrupt pair), and if any batch was entered — a disable-notification
event exists — the final check is immediately preceded by re-enabling
notifications and a full fence. -/
theorem c3_handle_desc_closes_kick_race {σ ω : Type} (vq : VQueue.VirtQueueOps σ)
    (op : Nat → VQueue.DescChain → ω → Except VQueue.VErr VQueue.Status × ω)
    (fuel : Nat) (qs : σ) (idx : Nat) (pend : List (Nat × VQueue.DescChain))
    (ost : ω) (out : VQueue.HDOut σ ω)
    (h : VQueue.handle_desc vq op fuel qs idx pend ost = some out)
    (hok : out.res = .ok ())
    (hnb : ∀ e ∈ out.events, VQueue.isBrkOp e = false) :
    vq.desc_avail out.qs out.idx = false ∧
    (∃ p t, out.events = p ++ [VQueue.QEvent.checkAvail out.idx false] ++ t ∧
      (t = [] ∨ t = [VQueue.QEvent.fence, VQueue.QEvent.queueIrq])) ∧
    (VQueue.QEvent.enableNotif false ∈ out.events →
      ∃ p t, out.events = p ++ [VQueue.QEvent.enableNotif true, VQueue.QEvent.fence,
          VQueue.QEvent.checkAvail out.idx false] ++ t ∧
        (t = [] ∨ t = [VQueue.QEvent.fence, VQueue.QEvent.queueIrq])) := by
  obtain ⟨hav, p, t, hev, ht, hp, -⟩ :=
    VQueue.hdGo_ok_exit fuel true qs idx pend ost false out h hok hnb
  refine ⟨hav, ⟨p, t, hev, ht⟩, ?_⟩
  intro hmem
  rcases hp with rfl | ⟨p', rfl⟩
  · exfalso
    rw [hev] at hmem
    rcases ht with rfl | rfl <;> simp at hmem
  · refine ⟨p', t, ?_, ht⟩
    rw [hev]
    simp

/-- C3 witness: the theorem applied to the one-chain mock run `out3`. -/
theorem c3_handle_desc_closes_kick_race_witness :
    VQueue.mockOps.desc_avail VQueue.out3.qs VQueue.out3.idx = false :=
  (c3_handle_desc_closes_kick_race VQueue.mockOps
    (fun _ _ u => ((.ok (.done 3) : Except VQueue.VErr VQueue.Status), (u : Unit)))
    10 VQueue.q1 0 [] () VQueue.out3 rfl rfl (by decide)).1

/-- C4, counterexample. An interrupt-eligible chain completes with `Done`,
then `get_desc_chain` fails at the next cursor and the `?` operator at
queue.rs line 124 returns immediately, skipping the `need_irq` block at lines
146-149: the used-ring entry was published with interrupt eligibility true,
yet `queue_irq` is never called — refuting the claimed "iff". -/
theorem c4_irq_skipped_on_fetch_error :
    VQueue.handle_desc VQueue.mockOps
        (fun _ _ u => ((.ok (.done 5) : Except VQueue.VErr VQueue.Status), (u : Unit)))
        10 VQueue.q4 0 [] () = some VQueue.out4 ∧
    VQueue.QEvent.pushUsed 7 5 true ∈ VQueue.out4.events ∧
    VQueue.QEvent.queueIrq ∉ VQueue.out4.events := by
  exact ⟨rfl, by decide, by decide⟩

/-- C4 (amended): per `handle_desc` invocation the interrupt sender is called
at most once, and when called it is the final event, preceded by a fence; it
is called iff the invocation did not return early through a descriptor-fetch
error (the `?` at queue.rs line 124, which skips the interrupt block) and at
least one chain completed with `Done` was interrupt-eligible at completion
time. -/
theorem c4_irq_batching_amended {σ ω : Type} (vq : VQueue.VirtQueueOps σ)
    (op : Nat → VQueue.DescChain → ω → Except VQueue.VErr VQueue.Status × ω)
    (fuel : Nat) (qs : σ) (idx : Nat) (pend : List (Nat × VQueue.DescChain))
    (ost : ω) (out : VQueue.HDOut σ ω)
    (h : VQueue.handle_desc vq op fuel qs idx pend ost = some out) :
    (VQueue.QEvent.queueIrq ∉ out.events ∨
      ∃ p, out.events = p ++ [VQueue.QEvent.fence, VQueue.QEvent.queueIrq] ∧
        VQueue.QEvent.queueIrq ∉ p) ∧
    (VQueue.QEvent.queueIrq ∈ out.events ↔
      ((∀ e ∈ out.events, VQueue.isFetchErr e = false) ∧
       ∃ e ∈ out.events, VQueue.isEligPush e = true)) := by
  refine ⟨VQueue.hdGo_irq_once fuel true qs idx pend ost false out h, ?_⟩
  have hiff := VQueue.hdGo_irq_iff fuel true qs idx pend ost false out h
  rw [hiff]
  constructor
  · rintro ⟨h1, h2 | h2⟩
    · cases h2
    · exact ⟨h1, h2⟩
  · rintro ⟨h1, h2⟩
    exact ⟨h1, Or.inr h2⟩

/-- C4 witness: the amended theorem applied to the mock run `out3`. -/
theorem c4_irq_batching_amended_witness :
    VQueue.QEvent.queueIrq ∉ VQueue.out3.events ∨
    ∃ p, VQueue.out3.events = p ++ [VQueue.QEvent.fence, VQueue.QEvent.queueIrq] ∧
      VQueue.QEvent.queueIrq ∉ p :=
  (c4_irq_batching_amended VQueue.mockOps
    (fun _ _ u => ((.ok (.done 3) : Except VQueue.VErr VQueue.Status), (u : Unit)))
    10 VQueue.q1 0 [] () VQueue.out3 rfl).1

/-- C5, counterexample. A callback returning `Break` makes `handle_desc`
exit through `break 'out` at queue.rs line 132, which — unlike the error arm
at lines 127-131 — does not call `enable_notification(true)`: the run returns
`Ok` with notifications still disabled and no enable-notification event after
the disable. -/
theorem c5_break_leaves_notifications_disabled :
    VQueue.handle_desc VQueue.mockOps
        (fun _ _ u => ((.ok .brk : Except VQueue.VErr VQueue.Status), (u : Unit)))
        10 VQueue.q1 0 [] () = some VQueue.out5 ∧
    VQueue.out5.res = .ok () ∧
    VQueue.out5.qs.notif = false ∧
    VQueue.QEvent.enableNotif false ∈ VQueue.out5.events ∧
    VQueue.QEvent.enableNotif true ∉ VQueue.out5.events := by
  exact ⟨rfl, rfl, rfl, by decide, by decide⟩

/-- C5 (amended): if the callback returns `Break`, the batch stops without
error — `handle_desc` returns `Ok` and the callback is not invoked on further
chains — but notifications are NOT re-enabled: after the Break op-call the
trace holds at most the final fence + interrupt pair, in particular no
enable-notification event. -/
theorem c5_break_stops_batch_amended {σ ω : Type} (vq : VQueue.VirtQueueOps σ)
    (op : Nat → VQueue.DescChain → ω → Except VQueue.VErr VQueue.Status × ω)
    (fuel : Nat) (qs : σ) (idx : Nat) (pend : List (Nat × VQueue.DescChain))
    (ost : ω) (out : VQueue.HDOut σ ω) (i : Nat)
    (h : VQueue.handle_desc vq op fuel qs idx pend ost = some out)
    (hmem : VQueue.QEvent.opCall i (.ok .brk) ∈ out.events) :
    out.res = .ok () ∧
    ∃ p t, out.events = p ++ [VQueue.QEvent.opCall i (.ok .brk)] ++ t ∧
      (t = [] ∨ t = [VQueue.QEvent.fence, VQueue.QEvent.queueIrq]) :=
  VQueue.hdGo_brk fuel true qs idx pend ost false out i h hmem

/-- C5 witness: the amended theorem applied to the mock run `out5`. -/
theorem c5_break_stops_batch_amended_witness : VQueue.out5.res = .ok () :=
  (c5_break_stops_batch_amended VQueue.mockOps
    (fun _ _ u => ((.ok .brk : Except VQueue.VErr VQueue.Status), (u : Unit)))
    10 VQueue.q1 0 [] () VQueue.out5 0 rfl (by decide)).1

/-- C6: `handle_pending` on an id absent from the pending store returns
`InvalidDescriptor` with that id, makes no callback, `push_used` or
`queue_irq` call (the event trace is empty), and leaves the ring state, the
pending store and the callback state unchanged. -/
theorem c6_handle_pending_unknown_id {σ ω : Type} (vq : VQueue.VirtQueueOps σ)
    (op : VQueue.DescChain → ω → Except VQueue.VErr Nat × ω) (index : Nat)
    (qs : σ) (pend : List (Nat × VQueue.DescChain)) (ost : ω)
    (habs : ∀ v, (index, v) ∉ pend) :
    VQueue.handle_pending vq op index qs pend ost =
      { res := .error (.invalidDescriptor index), qs := qs, pending := pend,
        opst := ost, events := [] } := by
  simp [VQueue.handle_pending, VQueue.pendingRemove_absent habs]

/-- C6 witness: the theorem applied to an empty pending store and id 7. -/
theorem c6_handle_pending_unknown_id_witness :
    VQueue.handle_pending VQueue.mockOps (fun _ u => (.ok 0, u)) 7 VQueue.q1 [] () =
      { res := .error (.invalidDescriptor 7), qs := VQueue.q1, pending := [],
        opst := (), events := [] } :=
  c6_handle_pending_unknown_id VQueue.mockOps (fun _ u => (.ok 0, u)) 7 VQueue.q1 [] ()
    (by simp)

/-- C7: the `copy_from_reader` classification of a read outcome — a zero-byte
read against writable buffers of nonzero total length yields `Break`, against
zero total length yields a zero-length `Done`, and `WouldBlock` yields
`Break` identically — and, for every `copy_from_reader` run, a `Break`-ed
chain ends the batch with nothing after its op-call but the final interrupt
pair (so no used-ring entry is published for it), while every `Done` op-call
is immediately followed by its used-ring publication with the same length. -/
theorem c7_copy_from_reader_zero_and_wouldblock (writable : List Nat) :
    (writable.sum ≠ 0 →
      VQueue.copy_from_reader_op writable (.ok 0) = .ok .brk) ∧
    (writable.sum = 0 →
      VQueue.copy_from_reader_op writable (.ok 0) = .ok (.done 0)) ∧
    VQueue.copy_from_reader_op writable (.error .wouldBlock) = .ok .brk ∧
    (∀ (σ ω : Type) (vq : VQueue.VirtQueueOps σ)
      (read : List Nat → ω → Except VQueue.IOErr Nat × ω) (fuel : Nat) (qs : σ)
      (idx : Nat) (pend : List (Nat × VQueue.DescChain)) (ost : ω)
      (out : VQueue.HDOut σ ω),
      VQueue.copy_from_reader vq read fuel qs idx pend ost = some out →
      (∀ i, VQueue.QEvent.opCall i (.ok .brk) ∈ out.events →
        ∃ p t, out.events = p ++ [VQueue.QEvent.opCall i (.ok .brk)] ++ t ∧
          (t = [] ∨ t = [VQueue.QEvent.fence, VQueue.QEvent.queueIrq])) ∧
      VQueue.DonePushed out.events) := by
  refine ⟨?_, ?_, rfl, ?_⟩
  · intro hne
    simp [VQueue.copy_from_reader_op, hne]
  · intro heq
    simp [VQueue.copy_from_reader_op, heq]
  · intro σ ω vq read fuel qs idx pend ost out h
    refine ⟨fun i hmem =>
      (VQueue.hdGo_brk fuel true qs idx pend ost false out i h hmem).2, ?_⟩
    exact VQueue.hdGo_donePushed fuel true qs idx pend ost false out h

/-- C7 witness: the classifier conjunct applied to a 4096-byte writable
buffer. -/
theorem c7_copy_from_reader_zero_and_wouldblock_witness :
    VQueue.copy_from_reader_op [4096] (.ok 0) = .ok .brk :=
  (c7_copy_from_reader_zero_and_wouldblock [4096]).1 (by decide)
